import Mathlib

/-!
Verification development for the card-scan server (src/server.js).

Text is modelled as `List Char`; each JavaScript string operation of the
extraction engine is embedded per character.  JavaScript `toUpperCase` is
modelled by core `Char.toUpper`, which agrees with it on the ASCII range the
extraction code manipulates.  The sequential global `String.replace` calls of
the source collapse to a single per-character map because the replacement
output alphabet (digits) is disjoint from every later search class.

All definitions come first, followed by all theorems.
-/

/-- Embeds the digit-substitution chain of `normalizeDigitLikeText`
(src/server.js lines 245-250): `[OQD]→0`, `[IL|]→1`, `S→5`, `B→8`, `Z→2`,
`G→6`, applied to a single character.  The same chain (without the case
fold) is `normalizeDateDigits` inside `extractExpiry` (lines 318-326). -/
def substDigit (c : Char) : Char :=
  if c = 'O' ∨ c = 'Q' ∨ c = 'D' then '0'
  else if c = 'I' ∨ c = 'L' ∨ c = '|' then '1'
  else if c = 'S' then '5'
  else if c = 'B' then '8'
  else if c = 'Z' then '2'
  else if c = 'G' then '6'
  else c

/-- Embeds `normalizeDigitLikeText` (src/server.js lines 242-251):
uppercase the text, then substitute the OCR-confusable glyphs by digits. -/
def normalizeDigitLikeText (text : List Char) : List Char :=
  text.map (fun c => substDigit (Char.toUpper c))

/-- Digit value of a character, as JavaScript `Number(ch)` evaluates a
one-digit string. -/
def charVal (c : Char) : Nat := c.toNat - 48

/-- Doubling step of the Luhn loop: double, subtract 9 when the doubled
value exceeds 9. -/
def luhnDouble (d : Nat) : Nat := if d * 2 > 9 then d * 2 - 9 else d * 2

/-- Loop of `luhnCheck` (src/server.js lines 257-267): digits are given
right-to-left together with the `shouldDouble` flag, which starts `false`
and alternates. -/
def luhnAcc : List Nat → Bool → Nat
  | [], _ => 0
  | d :: rest, dbl => (if dbl then luhnDouble d else d) + luhnAcc rest (!dbl)

/-- Embeds `luhnCheck` (src/server.js lines 253-270). -/
def luhnCheck (cardNumber : List Char) : Bool :=
  luhnAcc (cardNumber.reverse.map charVal) false % 10 == 0

/-- Index-weighted checksum following the spec's words: starting from the
rightmost digit (index 0), every second digit (odd index) is doubled with
the digit-sum correction, and everything is summed. -/
def luhnSpecAt : Nat → List Nat → Nat
  | _, [] => 0
  | i, d :: rest => (if i % 2 = 1 then luhnDouble d else d) + luhnSpecAt (i + 1) rest

/-- Statement of the spec's mod-10 criterion for a digit string. -/
def luhnSpecZero (d : List Char) : Prop :=
  luhnSpecAt 0 (d.reverse.map charVal) % 10 = 0

/-- Embeds the regex test `^4` of `detectCardType`. -/
def visaTest : List Char → Bool
  | '4' :: _ => true
  | _ => false

/-- Embeds the regex test `^(5[1-5]|2(2[2-9]|[3-6]\d|7[01]|720))` of
`detectCardType`. -/
def mcTest : List Char → Bool
  | '5' :: c :: _ => decide ('1' ≤ c ∧ c ≤ '5')
  | '2' :: '2' :: c :: _ => decide ('2' ≤ c ∧ c ≤ '9')
  | '2' :: '7' :: c :: rest =>
      decide (c = '0' ∨ c = '1') ||
        (decide (c = '2') && (match rest with | '0' :: _ => true | _ => false))
  | '2' :: c :: d :: _ => decide ('3' ≤ c ∧ c ≤ '6') && d.isDigit
  | _ => false

/-- Embeds the regex test `^(60|65|81|82|508)` of `detectCardType`. -/
def rupayTest : List Char → Bool
  | '6' :: '0' :: _ => true
  | '6' :: '5' :: _ => true
  | '8' :: '1' :: _ => true
  | '8' :: '2' :: _ => true
  | '5' :: '0' :: '8' :: _ => true
  | _ => false

/-- Embeds the regex test `^3[47]` of `detectCardType`. -/
def amexTest : List Char → Bool
  | '3' :: '4' :: _ => true
  | '3' :: '7' :: _ => true
  | _ => false

/-- Embeds the regex test `^6(?:011|5)` of `detectCardType`. -/
def discoverTest : List Char → Bool
  | '6' :: '0' :: '1' :: '1' :: _ => true
  | '6' :: '5' :: _ => true
  | _ => false

/-- Embeds `detectCardType` (src/server.js lines 272-282): strip non-digits,
then test the prefix rules in the fixed source order VISA, MASTERCARD,
RUPAY, AMEX, DISCOVER, else UNKNOWN. -/
def detectCardType (cardNumber : List Char) : String :=
  let bin := cardNumber.filter Char.isDigit
  if visaTest bin then "VISA"
  else if mcTest bin then "MASTERCARD"
  else if rupayTest bin then "RUPAY"
  else if amexTest bin then "AMEX"
  else if discoverTest bin then "DISCOVER"
  else "UNKNOWN"

/-- Test vector from the spec: the VISA number. -/
def visaVec : String := "4111111111111111"

/-- Test vector from the spec: the MASTERCARD number. -/
def mcVec : String := "5500000000000004"

/-- Test vector from the spec: the number claimed to be DISCOVER. -/
def discVec : String := "6011000000000004"

/-- Test vector from the spec: the AMEX number. -/
def amexVec : String := "340000000000009"

/-- Test vector from the spec: the RUPAY number. -/
def rupayVec : String := "6076000000000000"

/-- Separator class `[ -]` of the candidate-group regex. -/
def isSep (c : Char) : Bool := c = ' ' || c = '-'

/-- Greedy unit matching of the regex `(?:\d[ -]?){13,16}` at one position:
consume up to `fuel` units, each a digit followed by at most one space or
dash.  Nothing follows the quantifier in the source regex, so greedy
consumption without backtracking is exact.  Returns (units consumed,
consumed characters, rest of the text). -/
def munch : Nat → List Char → Nat × List Char × List Char
  | 0, cs => (0, [], cs)
  | _ + 1, [] => (0, [], [])
  | fuel + 1, c :: cs =>
    if c.isDigit then
      match cs with
      | s :: cs2 =>
        if isSep s then
          let r := munch fuel cs2
          (r.1 + 1, c :: s :: r.2.1, r.2.2)
        else
          let r := munch fuel cs
          (r.1 + 1, c :: r.2.1, r.2.2)
      | [] => (1, [c], [])
    else (0, [], c :: cs)

/-- Global scan `compactText.match(/(?:\d[ -]?){13,16}/g)` of
`extractCardNumber`: at each position try the greedy unit match; a match of
at least 13 units is recorded and scanning resumes after it, otherwise
scanning advances one character.  `fuel` bounds the number of scan steps
and is instantiated with the text length, which suffices because every step
consumes at least one character. -/
def scanGroups : Nat → List Char → List (List Char)
  | 0, _ => []
  | _ + 1, [] => []
  | fuel + 1, c :: cs =>
    let r := munch 16 (c :: cs)
    if 13 ≤ r.1 then r.2.1 :: scanGroups fuel r.2.2
    else scanGroups fuel cs

/-- Descending window lengths `maxLength, …, 13` of the fallback loop of
`extractCardNumber`. -/
def lensDesc (maxLen : Nat) : List Nat :=
  (List.range (maxLen - 12)).map (fun i => maxLen - i)

/-- Inner loop of the fallback sliding-window search at one start offset:
try windows from `min 16 (length - start)` down to 13; the first Luhn-valid
window wins. -/
def tryStart (allDigits : List Char) (start : Nat) : Option (List Char) :=
  let maxLen := min 16 (allDigits.length - start)
  (lensDesc maxLen).findSome? (fun len =>
    let cand := (allDigits.drop start).take len
    if luhnCheck cand then some cand else none)

/-- Fallback sliding-window search of `extractCardNumber` (src/server.js
lines 295-302): start offsets ascending, window lengths descending. -/
def fallbackScan (allDigits : List Char) : Option (List Char) :=
  if allDigits.length < 13 then none
  else (List.range (allDigits.length - 12)).findSome? (tryStart allDigits)

/-- Acceptance test applied to each candidate group (src/server.js lines
288-293): strip non-digits, require 13-16 digits and a passing Luhn check. -/
def groupDigits (g : List Char) : Option (List Char) :=
  let digits := g.filter Char.isDigit
  if 13 ≤ digits.length ∧ digits.length ≤ 16 ∧ luhnCheck digits = true then
    some digits
  else none

/-- Embeds `extractCardNumber` (src/server.js lines 284-305): normalize,
take the first candidate group passing the Luhn gate, else fall back to the
sliding-window search over the undifferentiated digit stream, else empty. -/
def extractCardNumber (rawText : List Char) : List Char :=
  let compactText := normalizeDigitLikeText rawText
  let groups := scanGroups compactText.length compactText
  match groups.findSome? groupDigits with
  | some digits => digits
  | none =>
    let allDigits := compactText.filter Char.isDigit
    match fallbackScan allDigits with
    | some c => c
    | none => []

/-- Outcome of the card-number branch of the POST /api/scan handler. -/
inductive ScanOutcome where
  | noNumber : ScanOutcome
  | tooLong : ScanOutcome
  | success : String → ScanOutcome
deriving DecidableEq

/-- Embeds the extraction-result branch of the POST /api/scan handler
(src/server.js lines 680-698): falsy (empty) number → 422 "not detected";
length above MAX_CARD_DIGITS = 16 → 422 "must be 16 digits or less";
otherwise proceed with the detected card type. -/
def scanExtractionOutcome (ocrText : List Char) : ScanOutcome :=
  let cardNumber := extractCardNumber ocrText
  if cardNumber.length = 0 then ScanOutcome.noNumber
  else if 16 < cardNumber.length then ScanOutcome.tooLong
  else ScanOutcome.success (detectCardType cardNumber)

/-- Digit-with-optional-separator runs: `UnitRun r n` states that `r` is a
nonempty sequence of literal digits, each but the last optionally followed
by one space or dash, ending in a digit and containing `n` digits — exactly
the texts matched by one pass of the candidate-group regex unit. -/
inductive UnitRun : List Char → Nat → Prop where
  | single (c : Char) : c.isDigit = true → UnitRun [c] 1
  | consDigit (c : Char) (r : List Char) (n : Nat) :
      c.isDigit = true → UnitRun r n → UnitRun (c :: r) (n + 1)
  | consDigitSep (c s : Char) (r : List Char) (n : Nat) :
      c.isDigit = true → isSep s = true → UnitRun r n → UnitRun (c :: s :: r) (n + 1)

/-- Splits off the one leading separator (if any) of the text following a
run: the greedy `[ -]?` of the last matched unit consumes it. -/
def sepSplit (s : List Char) : List Char × List Char :=
  match s with
  | c :: rest => if isSep c then ([c], rest) else ([], c :: rest)
  | [] => ([], [])

/-- Decision procedure for `UnitRun`: parses a text as digit-(optional
separator) units ending in a digit and counts the digits. -/
def unitCount : List Char → Option Nat
  | [] => none
  | [c] => if c.isDigit then some 1 else none
  | c :: s :: rest =>
    if c.isDigit then
      if isSep s then
        match rest with
        | [] => none
        | _ :: _ => (unitCount rest).map (fun k => k + 1)
      else (unitCount (s :: rest)).map (fun k => k + 1)
    else none

/-- Concrete noise prefix used as a test input. -/
def noisePre : String := "NUM: "

/-- Concrete separated card-number run used as a test input. -/
def runText : String := "4111 1111 1111 1111"

/-- Concrete noise suffix used as a test input. -/
def noiseSuf : String := " EXP"

/-- Mask block prepended by `maskCardNumber`: three space-separated groups
of four mask glyphs and a trailing space. -/
def maskBlock : String := "•••• •••• •••• "

/-- Embeds `maskCardNumber` (src/server.js lines 614-617): a falsy or
shorter-than-4 input gives the empty string; otherwise the fixed mask block
followed by the last four characters (`slice(-4)`). -/
def maskCardNumber (cardNumber : List Char) : List Char :=
  if cardNumber.length < 4 then []
  else maskBlock.toList ++ cardNumber.drop (cardNumber.length - 4)

/-- Concrete 13-digit Luhn-valid number used against claim C7. -/
def thirteenVec : String := "4222222222222"

/-- Session record of the in-memory store (src/server.js lines 627-632):
creation/expiry instants, status string, and whether scan data is present. -/
structure Sess where
  createdAt : Nat
  expiresAt : Nat
  status : String
  hasData : Bool
deriving DecidableEq

/-- Association-list lookup standing for `scanSessions.get` on the JS `Map`
(`Map` keys are unique, which the session-gate theorem takes as a
hypothesis). -/
def lookupSess : List (String × Sess) → String → Option Sess
  | [], _ => none
  | (k, v) :: rest, sid => if k = sid then some v else lookupSess rest sid

/-- Embeds `cleanupExpiredSessions` (src/server.js lines 231-238): every
session whose `expiresAt` is at or before `now` is removed. -/
def cleanupExpiredSessions (store : List (String × Sess)) (now : Nat) :
    List (String × Sess) :=
  store.filter (fun p => decide (now < p.2.expiresAt))

/-- Embeds the session gate of POST /api/scan (src/server.js lines 668-673):
unknown id → 404, expired → 410, otherwise the handler proceeds (written
200 here). -/
def scanGateStatus (store : List (String × Sess)) (now : Nat) (sid : String) : Nat :=
  match lookupSess store sid with
  | none => 404
  | some s => if s.expiresAt ≤ now then 410 else 200

/-- Embeds the session gate of GET /api/get-data (src/server.js lines
726-738): this handler first runs `cleanupExpiredSessions`, then looks up
and checks expiry, all at one clock reading. -/
def pollGateStatus (store : List (String × Sess)) (now : Nat) (sid : String) : Nat :=
  match lookupSess (cleanupExpiredSessions store now) sid with
  | none => 404
  | some s => if s.expiresAt ≤ now then 410 else 200

/-- Status string of a fresh session. -/
def pendingStatus : String := "pending"

/-- Session id present (but expired) in the concrete test store. -/
def expiredSid : String := "sess-a"

/-- Session id absent from the concrete test store. -/
def absentSid : String := "sess-b"

/-- Concrete test store: one session that expires at instant 5. -/
def storeEx : List (String × Sess) :=
  [(expiredSid, Sess.mk 0 5 pendingStatus false)]

/-- JavaScript `\\s` whitespace class, restricted to its ASCII members. -/
def jsSpace (c : Char) : Bool :=
  c = ' ' || c = '\t' || c = '\n' || c = '\r' || c = '\x0B' || c = '\x0C'

/-- Splits on the line separator regex `\\r?\\n` (src/server.js line 310). -/
def splitLinesRN : List Char → List (List Char)
  | [] => [[]]
  | '\r' :: '\n' :: cs => [] :: splitLinesRN cs
  | '\n' :: cs => [] :: splitLinesRN cs
  | c :: cs =>
    match splitLinesRN cs with
    | l :: ls => (c :: l) :: ls
    | [] => [[c]]

/-- JavaScript `String.trim` over the modelled whitespace class. -/
def trimString (l : List Char) : List Char :=
  ((l.dropWhile jsSpace).reverse.dropWhile jsSpace).reverse

/-- Upper-cases, splits into lines, trims them and drops the empty ones, as
both `extractExpiry` (src/server.js lines 307-312) and
`extractCardholderName` (lines 503-507) do. -/
def toLines (rawText : List Char) : List (List Char) :=
  ((splitLinesRN (rawText.map Char.toUpper)).map trimString).filter
    (fun l => !l.isEmpty)

/-- Month alternation `([0O][1-9]|1[0-2])` of the date regex: the two
matched characters and the rest. -/
def monthAt : List Char → Option (List Char × List Char)
  | c0 :: c1 :: rest =>
    if (c0 = '0' ∨ c0 = 'O') ∧ ('1' ≤ c1 ∧ c1 ≤ '9') then some ([c0, c1], rest)
    else if c0 = '1' ∧ ('0' ≤ c1 ∧ c1 ≤ '2') then some ([c0, c1], rest)
    else none
  | _ => none

/-- Year character class `[0-9OQDIL|SBZG]` of the date regex. -/
def isYearChar (c : Char) : Bool :=
  c.isDigit || c = 'O' || c = 'Q' || c = 'D' || c = 'I' || c = 'L' || c = '|' ||
    c = 'S' || c = 'B' || c = 'Z' || c = 'G'

/-- Greedy `{2,4}`-style take of year-class characters (first argument 4). -/
def takeYear : Nat → List Char → List Char × List Char
  | 0, cs => ([], cs)
  | _ + 1, [] => ([], [])
  | n + 1, c :: cs =>
    if isYearChar c then
      let r := takeYear n cs
      (c :: r.1, r.2)
    else ([], c :: cs)

/-- One attempt of the date regex
`([0O][1-9]|1[0-2])\\s*[-\\/]\\s*([0-9OQDIL|SBZG]{2,4})` at a fixed
position: month, optional whitespace, a dash or slash, optional whitespace,
then two to four year-class characters taken greedily.  Returns the month
characters, the year characters and the unconsumed rest. -/
def dateMatchAt (cs : List Char) : Option (List Char × List Char × List Char) :=
  match monthAt cs with
  | none => none
  | some (m, r1) =>
    match r1.dropWhile jsSpace with
    | sep :: r3 =>
      if sep = '-' ∨ sep = '/' then
        let y := takeYear 4 (r3.dropWhile jsSpace)
        if 2 ≤ y.1.length then some (m, y.1, y.2) else none
      else none
    | [] => none

/-- Global scan of the date regex over one line: leftmost matches, resuming
after each match end — the `lastIndex` behaviour of `exec` with the `g`
flag.  Records `(index, month, year)`. -/
def collectDatesAux : Nat → Nat → List Char → List (Nat × List Char × List Char)
  | 0, _, _ => []
  | _ + 1, _, [] => []
  | fuel + 1, i, c :: cs =>
    match dateMatchAt (c :: cs) with
    | some (m, y, r) =>
      (i, m, y) :: collectDatesAux fuel (i + ((c :: cs).length - r.length)) r
    | none => collectDatesAux fuel (i + 1) cs

/-- Embeds `normalizeDateDigits` (src/server.js lines 318-326): the digit
substitutions without a case fold. -/
def normalizeDateDigits (value : List Char) : List Char := value.map substDigit

/-- Month validation regex `^(0[1-9]|1[0-2])$` of `toExpiry`. -/
def monthOK : List Char → Bool
  | [c0, c1] =>
    (decide (c0 = '0') && decide ('1' ≤ c1) && decide (c1 ≤ '9')) ||
      (decide (c0 = '1') && decide ('0' ≤ c1) && decide (c1 ≤ '2'))
  | _ => false

/-- Year validation regex `^\\d{2,4}$` of `toExpiry`. -/
def yearOK (y : List Char) : Bool :=
  (decide (2 ≤ y.length) && decide (y.length ≤ 4)) && y.all Char.isDigit

/-- Embeds `toExpiry` (src/server.js lines 328-335): normalize the month
and year digits, validate both, keep the last two digits of 4-digit years
only (2- and 3-digit years pass through unchanged), and join with a slash. -/
def toExpiry (monthRaw yearRaw : List Char) : List Char :=
  let month := normalizeDateDigits monthRaw
  let yearClean := normalizeDateDigits yearRaw
  if monthOK month = false then []
  else if yearOK yearClean = false then []
  else
    let year := if yearClean.length = 4 then yearClean.drop 2 else yearClean
    month ++ '/' :: year

/-- Embeds `collectDateMatches` (src/server.js lines 337-352): all regex
matches whose `toExpiry` is truthy, with their match indices. -/
def collectDateMatches (line : List Char) : List (Nat × List Char) :=
  (collectDatesAux line.length 0 line).filterMap (fun t =>
    match toExpiry t.2.1 t.2.2 with
    | [] => none
    | e => some (t.1, e))

/-- Literal matcher for keyword alternatives: the rest after the literal. -/
def litAt : List Char → List Char → Option (List Char)
  | [], rest => some rest
  | _ :: _, [] => none
  | p :: ps, c :: cs => if p = c then litAt ps cs else none

/-- Word-character class `[A-Za-z0-9_]` backing `\\b` boundaries. -/
def isWordChar (c : Char) : Bool :=
  c.isAlpha || c.isDigit || c = '_'

/-- Alternative `VALID\\s*THRU`. -/
def validThruAt (cs : List Char) : Option (List Char) :=
  match litAt ['V', 'A', 'L', 'I', 'D'] cs with
  | none => none
  | some r1 => litAt ['T', 'H', 'R', 'U'] (r1.dropWhile jsSpace)

/-- Alternative `VALID\\s*FROM`. -/
def validFromAt (cs : List Char) : Option (List Char) :=
  match litAt ['V', 'A', 'L', 'I', 'D'] cs with
  | none => none
  | some r1 => litAt ['F', 'R', 'O', 'M'] (r1.dropWhile jsSpace)

/-- Word-boundary-delimited literal, for `\\bEXP\\b` and `\\bFROM\\b`:
the character before the position (if any) and the character after the
literal (if any) must not be word characters. -/
def boundedLitAt (pat : List Char) (prev : Option Char) (cs : List Char) :
    Option (List Char) :=
  let okBefore := match prev with
    | none => true
    | some c => !isWordChar c
  if okBefore then
    match litAt pat cs with
    | none => none
    | some r =>
      match r with
      | c :: _ => if isWordChar c then none else some r
      | [] => some r
  else none

/-- Alternative `EXPIRES?`: `EXPIRE` with an optional greedy `S`. -/
def expiresOptAt (cs : List Char) : Option (List Char) :=
  match litAt ['E', 'X', 'P', 'I', 'R', 'E'] cs with
  | none => none
  | some r =>
    match r with
    | 'S' :: t => some t
    | _ => some r

/-- Alternative `ISSUED?`: `ISSUE` with an optional greedy `D`. -/
def issuedOptAt (cs : List Char) : Option (List Char) :=
  match litAt ['I', 'S', 'S', 'U', 'E'] cs with
  | none => none
  | some r =>
    match r with
    | 'D' :: t => some t
    | _ => some r

/-- Alternative `MM\\s*\\/?\\s*YY`. -/
def mmYYAt (cs : List Char) : Option (List Char) :=
  match litAt ['M', 'M'] cs with
  | none => none
  | some r1 =>
    let r2 := r1.dropWhile jsSpace
    let r3 := match r2 with
      | '/' :: t => t
      | _ => r2
    litAt ['Y', 'Y'] (r3.dropWhile jsSpace)

/-- Alternative `MONTH\\s*\\/?\\s*YEAR`. -/
def monthYearAt (cs : List Char) : Option (List Char) :=
  match litAt ['M', 'O', 'N', 'T', 'H'] cs with
  | none => none
  | some r1 =>
    let r2 := r1.dropWhile jsSpace
    let r3 := match r2 with
      | '/' :: t => t
      | _ => r2
    litAt ['Y', 'E', 'A', 'R'] (r3.dropWhile jsSpace)

/-- One attempt of `thruKeywordRegex` (src/server.js line 315) at a fixed
position, alternatives in source order; the rest after the first match. -/
def thruAlt (prev : Option Char) (cs : List Char) : Option (List Char) :=
  match validThruAt cs with
  | some r => some r
  | none =>
  match litAt ['V', 'A', 'L', 'I', 'D', 'T', 'H', 'R', 'U'] cs with
  | some r => some r
  | none =>
  match litAt ['T', 'H', 'R', 'U'] cs with
  | some r => some r
  | none =>
  match litAt ['T', 'H', 'R', 'O', 'U', 'G', 'H'] cs with
  | some r => some r
  | none =>
  match boundedLitAt ['E', 'X', 'P'] prev cs with
  | some r => some r
  | none =>
  match litAt ['E', 'X', 'P', 'I', 'R', 'Y'] cs with
  | some r => some r
  | none =>
  match expiresOptAt cs with
  | some r => some r
  | none =>
  match mmYYAt cs with
  | some r => some r
  | none => monthYearAt cs

/-- One attempt of `fromKeywordRegex` (src/server.js line 316) at a fixed
position, alternatives in source order. -/
def fromAlt (prev : Option Char) (cs : List Char) : Option (List Char) :=
  match validFromAt cs with
  | some r => some r
  | none =>
  match litAt ['V', 'A', 'L', 'I', 'D', 'F', 'R', 'O', 'M'] cs with
  | some r => some r
  | none =>
  match boundedLitAt ['F', 'R', 'O', 'M'] prev cs with
  | some r => some r
  | none =>
  match issuedOptAt cs with
  | some r => some r
  | none =>
  match litAt ['S', 'I', 'N', 'C', 'E'] cs with
  | some r => some r
  | none => litAt ['S', 'T', 'A', 'R', 'T'] cs

/-- Global keyword scan modelling `getPositions` (src/server.js lines
354-366): leftmost matches, resuming after each match end, tracking the
previous character for word boundaries. -/
def scanKw (alt : Option Char → List Char → Option (List Char)) :
    Nat → Nat → Option Char → List Char → List Nat
  | 0, _, _, _ => []
  | _ + 1, _, _, [] => []
  | fuel + 1, i, prev, c :: cs =>
    match alt prev (c :: cs) with
    | some r =>
      let len := (c :: cs).length - r.length
      i :: scanKw alt fuel (i + len) (((c :: cs).take len).getLast?) r
    | none => scanKw alt fuel (i + 1) (some c) cs

/-- Match positions of the thru-keyword regex in a line. -/
def thruPositions (line : List Char) : List Nat :=
  scanKw thruAlt line.length 0 none line

/-- Match positions of the from-keyword regex in a line. -/
def fromPositions (line : List Char) : List Nat :=
  scanKw fromAlt line.length 0 none line

/-- Embeds `thruKeywordRegex.test`. -/
def testThru (line : List Char) : Bool := !(thruPositions line).isEmpty

/-- Embeds `fromKeywordRegex.test`. -/
def testFrom (line : List Char) : Bool := !(fromPositions line).isEmpty

/-- Embeds the FROM/THRU special case (src/server.js lines 381-396): the
first line holding both keyword kinds returns the last of two or more dates
on it, or — when it has no dates — the last of two or more dates on the
immediately following line. -/
def specialCaseScan : List (List Char) → Option (List Char)
  | [] => none
  | line :: rest =>
    let sameDates := collectDateMatches line
    let hasF := testFrom line
    let hasT := testThru line
    if hasF && hasT && decide (2 ≤ sameDates.length) then
      sameDates.getLast?.map Prod.snd
    else
      let nextDates := match rest with
        | next :: _ => collectDateMatches next
        | [] => []
      if hasF && hasT && sameDates.isEmpty && decide (2 ≤ nextDates.length) then
        nextDates.getLast?.map Prod.snd
      else specialCaseScan rest

/-- Scored expiry candidate of the general path. -/
structure ExpCand where
  expiry : List Char
  score : Int
  lineIndex : Nat
  position : Nat
deriving DecidableEq

/-- Distance between two positions. -/
def natDist (a b : Nat) : Nat := max a b - min a b

/-- Minimum of a list of naturals (used only on nonempty lists, matching
`Math.min(...)`). -/
def minList : List Nat → Nat
  | [] => 0
  | x :: xs => xs.foldl min x

/-- Embeds `nearestDistance` (src/server.js lines 368-371) for nonempty
position lists; the empty case (Infinity) is handled at the use sites. -/
def nearestDist (target : Nat) (positions : List Nat) : Nat :=
  minList (positions.map (natDist target))

/-- Score of one date candidate (src/server.js lines 414-445). -/
def scoreCand (thruPos fromPos : List Nat) (prevLine nextLine : List Char)
    (position : Nat) : Int :=
  let s1 : Int := if thruPos.isEmpty then 0
    else max 0 (80 - (nearestDist position thruPos : Int))
  let s2 : Int := if fromPos.isEmpty then 0
    else max 0 (90 - (nearestDist position fromPos : Int))
  let s3 : Int := if !thruPos.isEmpty && decide (minList thruPos ≤ position) then 16 else 0
  let s4 : Int := if !fromPos.isEmpty && decide (minList fromPos ≤ position) then 24 else 0
  let s5 : Int := if !prevLine.isEmpty && testThru prevLine then 22 else 0
  let s6 : Int := if !prevLine.isEmpty && testFrom prevLine then 18 else 0
  let s7 : Int := if !nextLine.isEmpty && testThru nextLine then 8 else 0
  let s8 : Int := if !nextLine.isEmpty && testFrom nextLine then 8 else 0
  s1 - s2 + s3 - s4 + s5 - s6 + s7 - s8

/-- Candidates of one line with its neighbours (src/server.js lines
400-458). -/
def lineCandidates (prevLine line nextLine : List Char) (lineIndex : Nat) :
    List ExpCand :=
  let thruPos := thruPositions line
  let fromPos := fromPositions line
  (collectDateMatches line).map (fun pe =>
    ExpCand.mk pe.2 (scoreCand thruPos fromPos prevLine nextLine pe.1) lineIndex pe.1)

/-- All scored candidates of the `lines.forEach` loop; as in the source,
line 0 has the empty string as previous line and the last line the empty
string as next line. -/
def allCandidates (lines : List (List Char)) : List ExpCand :=
  (List.range lines.length).flatMap (fun i =>
    lineCandidates (if i = 0 then [] else lines.getD (i - 1) [])
      (lines.getD i []) (lines.getD (i + 1) []) i)

/-- Numeric value `Number(str)` of a digit string. -/
def natOfDigits (l : List Char) : Nat :=
  l.foldl (fun acc c => acc * 10 + charVal c) 0

/-- Month component of an `MM/Y…` expiry string. -/
def expMonth (e : List Char) : Nat :=
  natOfDigits (e.takeWhile (fun c => !decide (c = '/')))

/-- Year component of an `MM/Y…` expiry string. -/
def expYear (e : List Char) : Nat :=
  natOfDigits ((e.dropWhile (fun c => !decide (c = '/'))).drop 1)

/-- Embeds `compareExpiry` (src/server.js lines 373-379): year descending,
then month descending. -/
def compareExpiry (a b : ExpCand) : Int :=
  if expYear a.expiry ≠ expYear b.expiry then
    (expYear b.expiry : Int) - (expYear a.expiry : Int)
  else (expMonth b.expiry : Int) - (expMonth a.expiry : Int)

/-- Comparator order induced by a JS comparator: `a` sorts no later than
`b` when the comparator value is nonpositive. -/
def candLE (a b : ExpCand) : Bool := decide (compareExpiry a b ≤ 0)

/-- Score-order comparator of the single-candidate branch (src/server.js
lines 467-471): score descending, then line index descending, then
position descending. -/
def scoreLE (a b : ExpCand) : Bool :=
  if a.score ≠ b.score then decide (b.score ≤ a.score)
  else if a.lineIndex ≠ b.lineIndex then decide (b.lineIndex ≤ a.lineIndex)
  else decide (b.position ≤ a.position)

/-- Stable insertion, modelling `Array.prototype.sort` (stable in Node)
under a total-preorder comparator. -/
def insCand (le : ExpCand → ExpCand → Bool) (c : ExpCand) :
    List ExpCand → List ExpCand
  | [] => [c]
  | d :: ds => if le c d then c :: d :: ds else d :: insCand le c ds

/-- Stable insertion sort over candidates. -/
def sortCands (le : ExpCand → ExpCand → Bool) (l : List ExpCand) : List ExpCand :=
  l.foldr (insCand le) []

/-- Expiry of the first sorted candidate (`candidates[0].expiry`). -/
def bestExpiry : List ExpCand → List Char
  | best :: _ => best.expiry
  | [] => []

/-- General path of `extractExpiry` (src/server.js lines 460-473): no
candidate gives the empty string, more than one candidate gives the head of
the `compareExpiry` sort, and exactly one candidate the head of the score
sort. -/
def generalPath : List ExpCand → List Char
  | [] => []
  | c :: rest =>
    if 1 ≤ rest.length then bestExpiry (sortCands candLE (c :: rest))
    else bestExpiry (sortCands scoreLE (c :: rest))

/-- Embeds `extractExpiry` (src/server.js lines 307-474): the FROM/THRU
special case wins, otherwise the scored general path decides. -/
def extractExpiry (rawText : List Char) : List Char :=
  let lines := toLines rawText
  match specialCaseScan lines with
  | some e => e
  | none => generalPath (allCandidates lines)

/-- Shape of every nonempty `toExpiry` result: a valid month, a slash and a
2- or 3-digit year. -/
def expiryShape (e : List Char) : Prop :=
  ∃ m y, e = m ++ '/' :: y ∧ monthOK m = true ∧ y.all Char.isDigit = true ∧
    (y.length = 2 ∨ y.length = 3)

/-- The shape claim C5 asserts: empty, or a month, a slash and exactly two
digits. -/
def claimedMMYY (e : List Char) : Bool :=
  e.isEmpty ||
    (decide (e.length = 5) && monthOK (e.take 2) && decide (e.getD 2 ' ' = '/') &&
      (e.drop 3).all Char.isDigit)

/-- Chronological order on expiry strings: year, then month. -/
def chronLE (e f : List Char) : Prop :=
  expYear e < expYear f ∨ (expYear e = expYear f ∧ expMonth e ≤ expMonth f)

/-- Concrete input with a 3-digit year component. -/
def yr3Vec : String := "09/263"

/-- Concrete line triggering the FROM/THRU special case with the later date
first. -/
def fromThruVec : String := "VALID FROM 09/26 THRU 03/24"

/-- Concrete two-line input with two distinct date candidates. -/
def twoDatesVec : String := "03/24\n09/26"

/-- Expiry literal 03/24. -/
def r0324 : String := "03/24"

/-- Expiry literal 09/26. -/
def r0926 : String := "09/26"

/-- Blocklist of `extractCardholderName` (src/server.js lines 477-500). -/
def blockedWords : List (List Char) :=
  [r"VALID", r"THRU", r"THROUGH", r"FROM", r"MONTH", r"YEAR", r"EXP", r"EXPIRES",
   r"CARD", r"DEBIT", r"CREDIT", r"BANK", r"VISA", r"MASTERCARD", r"RUPAY",
   r"AMEX", r"DISCOVER", r"PLATINUM", r"SIGNATURE", r"CLASSIC", r"GOLD",
   r"WORLD", r"ELECTRON", r"PAY", r"MEMBER", r"SINCE", r"CORP", r"LIMITED",
   r"LTD", r"PRIVATE", r"BUSINESS", r"AZADI", r"AMRIT", r"MAHOTSAV",
   r"INDIA"].map String.toList

/-- Honorific tokens dropped from the front of a candidate (src/server.js
line 502). -/
def honorifics : List (List Char) :=
  [r"MR", r"MRS", r"MS", r"MISS", r"DR", r"SHRI", r"SMT"].map String.toList

/-- Digit-to-letter confusion map of `normalizeNameLine` (src/server.js
lines 529-534): `0→O`, `1→I`, `5→S`, `8→B`. -/
def nameMapChar (c : Char) : Char :=
  if c = '0' then 'O'
  else if c = '1' then 'I'
  else if c = '5' then 'S'
  else if c = '8' then 'B'
  else c

/-- Replacement `[^A-Z\\s]→' '` of `normalizeNameLine` (line 535). -/
def scrubChar (c : Char) : Char :=
  if ('A' ≤ c ∧ c ≤ 'Z') ∨ jsSpace c = true then c else ' '

/-- Replacement `\\s+→' '` of `normalizeNameLine` (line 536): collapses
every whitespace run to a single space; the flag records whether the
previous character was collapsed whitespace. -/
def collapseWS : Bool → List Char → List Char
  | _, [] => []
  | prev, c :: cs =>
    if jsSpace c then
      if prev then collapseWS true cs else ' ' :: collapseWS true cs
    else c :: collapseWS false cs

/-- Embeds `normalizeNameLine` (src/server.js lines 529-538). -/
def normalizeNameLine (line : List Char) : List Char :=
  trimString (collapseWS false ((line.map nameMapChar).map scrubChar))

/-- Accumulating splitter behind `split(' ')`. -/
def splitSpaceAux : List Char → List Char → List (List Char)
  | acc, [] => [acc.reverse]
  | acc, c :: cs =>
    if c = ' ' then acc.reverse :: splitSpaceAux [] cs
    else splitSpaceAux (c :: acc) cs

/-- JavaScript `split(' ').filter(Boolean)`. -/
def splitSpace (l : List Char) : List (List Char) :=
  (splitSpaceAux [] l).filter (fun w => !w.isEmpty)

/-- Substring containment of a literal (regex `.test` with a literal
alternative). -/
def containsLit (pat : List Char) (l : List Char) : Bool :=
  l.tails.any (fun t => (litAt pat t).isSome)

/-- One attempt of the plain date pattern
`(0[1-9]|1[0-2])\\s*[-\\/]\\s*(\\d{2}|\\d{4})` (separator class dash or slash) used by the name
extractor (src/server.js lines 515, 524) at a fixed position. -/
def dateLikeAt (cs : List Char) : Bool :=
  match cs with
  | c0 :: c1 :: rest =>
    if (c0 = '0' ∧ '1' ≤ c1 ∧ c1 ≤ '9') ∨ (c0 = '1' ∧ '0' ≤ c1 ∧ c1 ≤ '2') then
      match rest.dropWhile jsSpace with
      | sep :: r2 =>
        if sep = '/' ∨ sep = '-' then
          match r2.dropWhile jsSpace with
          | d1 :: d2 :: _ => d1.isDigit && d2.isDigit
          | _ => false
        else false
      | [] => false
    else false
  | _ => false

/-- Test of the plain date pattern anywhere in a line. -/
def dateLikeTest (l : List Char) : Bool := l.tails.any dateLikeAt

/-- Test of `anchorPattern` (src/server.js line 510):
`(VALID|THRU|THROUGH|EXP|MONTH|YEAR|MM\\/?YY|DEBIT|CREDIT|CARD)`. -/
def anchorTest (line : List Char) : Bool :=
  containsLit (r"VALID".toList) line || containsLit (r"THRU".toList) line ||
    containsLit (r"THROUGH".toList) line || containsLit (r"EXP".toList) line ||
    containsLit (r"MONTH".toList) line || containsLit (r"YEAR".toList) line ||
    containsLit (r"MM/YY".toList) line || containsLit (r"MMYY".toList) line ||
    containsLit (r"DEBIT".toList) line || containsLit (r"CREDIT".toList) line ||
    containsLit (r"CARD".toList) line

/-- Anchor line indices (src/server.js lines 514-517). -/
def anchorIndices (lines : List (List Char)) : List Nat :=
  (List.range lines.length).filter (fun i =>
    anchorTest (lines.getD i []) || dateLikeTest (lines.getD i []))

/-- Number-line indices: lines whose digit count is 13-16 (lines 519-522). -/
def cardNumberIndices (lines : List (List Char)) : List Nat :=
  (List.range lines.length).filter (fun i =>
    decide (13 ≤ ((lines.getD i []).filter Char.isDigit).length) &&
      decide (((lines.getD i []).filter Char.isDigit).length ≤ 16))

/-- Expiry-line indices: lines matching the plain date pattern (524-526). -/
def expiryIndices (lines : List (List Char)) : List Nat :=
  (List.range lines.length).filter (fun i => dateLikeTest (lines.getD i []))

/-- Embeds the `reduce` nearest-index search (src/server.js lines 579-581,
588-590): first element wins ties. -/
def nearestIdx (idxs : List Nat) (i : Nat) : Nat :=
  match idxs with
  | [] => 0
  | j :: rest => rest.foldl (fun closest current =>
      if natDist current i < natDist closest i then current else closest) j

/-- Vowel test `/[AEIOU]/` per word. -/
def hasVowel (w : List Char) : Bool :=
  w.any (fun c => c = 'A' ∨ c = 'E' ∨ c = 'I' ∨ c = 'O' ∨ c = 'U')

/-- Garbage detector `/([A-Z])\\1{2,}/`: three equal consecutive
uppercase letters. -/
def tripleRepeat : List Char → Bool
  | c1 :: c2 :: c3 :: rest =>
    (decide ('A' ≤ c1 ∧ c1 ≤ 'Z') && decide (c1 = c2) && decide (c2 = c3)) ||
      tripleRepeat (c2 :: c3 :: rest)
  | _ => false

/-- JavaScript `words.join(' ')`. -/
def joinWords : List (List Char) → List Char
  | [] => []
  | [w] => w
  | w :: ws => w ++ ' ' :: joinWords ws

/-- Candidate score (src/server.js lines 561-595). -/
def nameScore (anchors cardIdx expIdx : List Nat) (i : Nat)
    (words : List (List Char)) : Int :=
  let fullName := joinWords words
  let s1 : Int := if words.length = 2 ∨ words.length = 3 then 5 else 0
  let s2 : Int := if words.length = 4 then 2 else 0
  let letters := (fullName.filter (fun c => !jsSpace c)).length
  let s3 : Int :=
    if 3 * words.length ≤ letters ∧ letters ≤ 8 * words.length then 3 else 0
  let s4 : Int :=
    if !fullName.isEmpty && fullName.all (fun c => ('A' ≤ c ∧ c ≤ 'Z') ∨ jsSpace c = true)
    then 2 else 0
  let s5 : Int :=
    if anchors.isEmpty then 0
    else if nearestDist i anchors ≤ 2 then 3
    else if nearestDist i anchors ≤ 4 then 1
    else 0
  let s6 : Int :=
    if !cardIdx.isEmpty &&
        (decide (nearestIdx cardIdx i < i) && decide (i - nearestIdx cardIdx i ≤ 6))
    then 4 else 0
  let s7 : Int := if !cardIdx.isEmpty && decide (i < nearestIdx cardIdx i) then 2 else 0
  let s8 : Int :=
    if !expIdx.isEmpty &&
        (decide (nearestIdx expIdx i < i) && decide (i - nearestIdx expIdx i ≤ 4))
    then 3 else 0
  let s9 : Int := if tripleRepeat fullName then 3 else 0
  s1 + s2 + s3 + s4 + s5 + s6 - s7 + s8 - s9

/-- Candidate filter and scoring for one line (src/server.js lines
543-601): normalization, the length windows, the honorific drop, the 2-4
word window, per-word length bounds, the blocklist, the vowel requirement,
then the additive score. -/
def nameCandidateOfLine (anchors cardIdx expIdx : List Nat) (i : Nat)
    (line : List Char) : Option (List Char × Int) :=
  let normalized := normalizeNameLine line
  if normalized.isEmpty ∨ normalized.length < 5 ∨ 40 < normalized.length then none
  else
    let words0 := splitSpace normalized
    if words0.isEmpty then none
    else
      let words := if (words0.headD []) ∈ honorifics then words0.tail else words0
      if words.length < 2 ∨ 4 < words.length then none
      else if words.any (fun w => decide (w.length < 2) || decide (14 < w.length)) then none
      else if words.any (fun w => decide (w ∈ blockedWords)) then none
      else if !words.all hasVowel then none
      else some (joinWords words, nameScore anchors cardIdx expIdx i words)

/-- All name candidates with their scores, in line order. -/
def nameCandidates (rawText : List Char) : List (List Char × Int) :=
  let lines := toLines rawText
  let anchors := anchorIndices lines
  let cardIdx := cardNumberIndices lines
  let expIdx := expiryIndices lines
  (List.range lines.length).filterMap (fun i =>
    nameCandidateOfLine anchors cardIdx expIdx i (lines.getD i []))

/-- The best-candidate fold of src/server.js lines 540-601: strictly higher
scores replace, so the first highest-scoring candidate wins. -/
def pickBest : List (List Char × Int) → Option (List Char × Int)
  | [] => none
  | c :: rest =>
    some (rest.foldl (fun best cand => if cand.2 > best.2 then cand else best) c)

/-- Embeds `extractCardholderName` (src/server.js lines 476-604): the best
candidate when its score is strictly positive, else the empty string. -/
def extractCardholderName (rawText : List Char) : List Char :=
  match pickBest (nameCandidates rawText) with
  | none => []
  | some best => if best.2 > 0 then best.1 else []

/-- Concrete spec scenario text for the name extractor. -/
def nameScenario : String := "4111 1111 1111 1111\nJOHN MICHAEL SMITH\nVALID THRU 09/26"

/-- Concrete text with no name candidates. -/
def nameNoCand : String := "VALID THRU"

/- ===================== theorems ===================== -/

/-- Helper: `Char.ofNat` of a scalar value below the surrogate range keeps
its numeric value. -/
theorem charOfNat_toNat (n : Nat) (h : n < 55296) : (Char.ofNat n).toNat = n := by
  have hv : n.isValidChar := Or.inl h
  simp only [Char.ofNat, dif_pos hv]
  simp only [Char.ofNatAux, Char.toNat, UInt32.toNat]
  simp only [BitVec.toNat_ofNatLt]

/-- Helper: `Char.isLower` in terms of the scalar value. -/
theorem char_isLower_iff (c : Char) : c.isLower = true ↔ 97 ≤ c.toNat ∧ c.toNat ≤ 122 := by
  simp only [Char.isLower, Char.toNat, Bool.and_eq_true, decide_eq_true_eq]
  constructor
  · intro ⟨h1, h2⟩
    exact ⟨h1, h2⟩
  · intro ⟨h1, h2⟩
    exact ⟨h1, h2⟩

/-- Helper: uppercasing never produces a lowercase ASCII letter. -/
theorem toUpper_not_lower (c : Char) : (Char.toUpper c).isLower = false := by
  simp only [Char.toUpper]
  by_cases h : c.toNat ≥ 97 ∧ c.toNat ≤ 122
  · simp only [if_pos h]
    have h2 : (Char.ofNat (c.toNat - 32)).toNat = c.toNat - 32 :=
      charOfNat_toNat _ (by omega)
    rw [Bool.eq_false_iff]
    intro hl
    have h3 := (char_isLower_iff _).mp hl
    rw [h2] at h3
    omega
  · simp only [if_neg h]
    rw [Bool.eq_false_iff]
    intro hl
    have h3 := (char_isLower_iff _).mp hl
    exact h ⟨h3.1, h3.2⟩

/-- Helper: uppercasing a character that is not lowercase is the identity. -/
theorem toUpper_of_not_lower (c : Char) (h : c.isLower = false) : Char.toUpper c = c := by
  simp only [Char.toUpper]
  rw [if_neg]
  intro hc
  rw [Bool.eq_false_iff] at h
  exact h ((char_isLower_iff c).mpr ⟨hc.1, hc.2⟩)

/-- Helper: JavaScript `toUpperCase` (core `Char.toUpper`) is idempotent. -/
theorem toUpper_idem (c : Char) : Char.toUpper (Char.toUpper c) = Char.toUpper c :=
  toUpper_of_not_lower _ (toUpper_not_lower c)

/-- Helper: the substitution map is idempotent on characters. -/
theorem substDigit_idem (c : Char) : substDigit (substDigit c) = substDigit c := by
  by_cases h1 : c = 'O' ∨ c = 'Q' ∨ c = 'D'
  · have hc : substDigit c = '0' := by simp only [substDigit]; rw [if_pos h1]
    rw [hc]; decide
  by_cases h2 : c = 'I' ∨ c = 'L' ∨ c = '|'
  · have hc : substDigit c = '1' := by
      simp only [substDigit]; rw [if_neg h1, if_pos h2]
    rw [hc]; decide
  by_cases h3 : c = 'S'
  · have hc : substDigit c = '5' := by
      simp only [substDigit]; rw [if_neg h1, if_neg h2, if_pos h3]
    rw [hc]; decide
  by_cases h4 : c = 'B'
  · have hc : substDigit c = '8' := by
      simp only [substDigit]; rw [if_neg h1, if_neg h2, if_neg h3, if_pos h4]
    rw [hc]; decide
  by_cases h5 : c = 'Z'
  · have hc : substDigit c = '2' := by
      simp only [substDigit]; rw [if_neg h1, if_neg h2, if_neg h3, if_neg h4, if_pos h5]
    rw [hc]; decide
  by_cases h6 : c = 'G'
  · have hc : substDigit c = '6' := by
      simp only [substDigit]; rw [if_neg h1, if_neg h2, if_neg h3, if_neg h4, if_neg h5, if_pos h6]
    rw [hc]; decide
  · have hc : substDigit c = c := by
      simp only [substDigit]
      rw [if_neg h1, if_neg h2, if_neg h3, if_neg h4, if_neg h5, if_neg h6]
    rw [hc]
    exact hc

/-- Helper: normalized characters are fixed by a further uppercase pass. -/
theorem substDigit_toUpper_fix (c : Char) :
    Char.toUpper (substDigit (Char.toUpper c)) = substDigit (Char.toUpper c) := by
  have hup : Char.toUpper (Char.toUpper c) = Char.toUpper c := toUpper_idem c
  generalize hy : Char.toUpper c = y at hup
  by_cases h1 : y = 'O' ∨ y = 'Q' ∨ y = 'D'
  · have hc : substDigit y = '0' := by simp only [substDigit]; rw [if_pos h1]
    rw [hc]; decide
  by_cases h2 : y = 'I' ∨ y = 'L' ∨ y = '|'
  · have hc : substDigit y = '1' := by
      simp only [substDigit]; rw [if_neg h1, if_pos h2]
    rw [hc]; decide
  by_cases h3 : y = 'S'
  · have hc : substDigit y = '5' := by
      simp only [substDigit]; rw [if_neg h1, if_neg h2, if_pos h3]
    rw [hc]; decide
  by_cases h4 : y = 'B'
  · have hc : substDigit y = '8' := by
      simp only [substDigit]; rw [if_neg h1, if_neg h2, if_neg h3, if_pos h4]
    rw [hc]; decide
  by_cases h5 : y = 'Z'
  · have hc : substDigit y = '2' := by
      simp only [substDigit]; rw [if_neg h1, if_neg h2, if_neg h3, if_neg h4, if_pos h5]
    rw [hc]; decide
  by_cases h6 : y = 'G'
  · have hc : substDigit y = '6' := by
      simp only [substDigit]; rw [if_neg h1, if_neg h2, if_neg h3, if_neg h4, if_neg h5, if_pos h6]
    rw [hc]; decide
  · have hc : substDigit y = y := by
      simp only [substDigit]
      rw [if_neg h1, if_neg h2, if_neg h3, if_neg h4, if_neg h5, if_neg h6]
    rw [hc]
    exact hup

/-- Helper: the per-character normalization map is idempotent. -/
theorem normChar_idem (c : Char) :
    substDigit (Char.toUpper (substDigit (Char.toUpper c))) = substDigit (Char.toUpper c) := by
  rw [substDigit_toUpper_fix, substDigit_idem]

/-- Claim C10: the Normalizer is idempotent — normalizing already-normalized
text changes nothing, since digits are fixed points of the substitution. -/
theorem C10_normalizer_idempotent (x : List Char) :
    normalizeDigitLikeText (normalizeDigitLikeText x) = normalizeDigitLikeText x := by
  unfold normalizeDigitLikeText
  rw [List.map_map]
  apply List.map_congr_left
  intro c _
  exact normChar_idem c

/-- Helper: `luhnSpecAt` depends on the starting index only through its
parity. -/
theorem luhnSpecAt_parity (ds : List Nat) :
    ∀ i j, i % 2 = j % 2 → luhnSpecAt i ds = luhnSpecAt j ds := by
  induction ds with
  | nil => intro i j _; rfl
  | cons d rest ih =>
    intro i j hij
    simp only [luhnSpecAt, hij]
    rw [ih (i + 1) (j + 1) (by omega)]

/-- Helper: the source loop computes the spec's index-weighted sum. -/
theorem luhnAcc_eq_spec (ds : List Nat) :
    ∀ b, luhnAcc ds b = luhnSpecAt (if b then 1 else 0) ds := by
  induction ds with
  | nil => intro b; cases b <;> rfl
  | cons d rest ih =>
    intro b
    cases b with
    | false =>
      simp only [luhnAcc, luhnSpecAt, ih, Bool.not_false]
      norm_num
    | true =>
      simp only [luhnAcc, luhnSpecAt, ih, Bool.not_true]
      norm_num
      rw [luhnSpecAt_parity rest 2 0 (by omega)]

/-- Claim C2: for every digit string of length 13-16, `luhnCheck` accepts
exactly when the standard mod-10 checksum (double every second digit from
the right, subtract 9 past 9, sum) is zero. -/
theorem C2_luhnCheck_iff_checksum (d : List Char) (hdig : ∀ c ∈ d, c.isDigit = true)
    (hlen1 : 13 ≤ d.length) (hlen2 : d.length ≤ 16) :
    luhnCheck d = true ↔ luhnSpecZero d := by
  unfold luhnCheck luhnSpecZero
  rw [luhnAcc_eq_spec]
  simp only [if_neg (by simp : ¬False), beq_iff_eq]
  rfl

/-- Witness for claim C2 at the spec's VISA vector. -/
theorem C2_luhnCheck_iff_checksum_witness :
    luhnCheck visaVec.toList = true ∧ luhnSpecZero visaVec.toList := by
  have h := C2_luhnCheck_iff_checksum visaVec.toList (by decide) (by decide) (by decide)
  exact ⟨by decide, h.mp (by decide)⟩

/-- Counterexample for claim C1: the source checks the RUPAY prefix rule
(`60,65,81,82,508`) before DISCOVER's, so the vector `6011000000000004`
is classified RUPAY, not DISCOVER as the claim states. -/
theorem C1_counterexample :
    detectCardType discVec.toList = "RUPAY" ∧ ("RUPAY" : String) ≠ "DISCOVER" := by
  exact ⟨by decide, by decide⟩

/-- Claim C1 (amended): `detectCardType` classifies the spec's five vectors
as VISA, MASTERCARD, RUPAY (not DISCOVER: the RUPAY `60` rule fires first),
AMEX and RUPAY respectively, under the fixed priority order VISA,
MASTERCARD, RUPAY, AMEX, DISCOVER, else UNKNOWN. -/
theorem C1_networkDetector_vectors :
    detectCardType visaVec.toList = "VISA" ∧
    detectCardType mcVec.toList = "MASTERCARD" ∧
    detectCardType discVec.toList = "RUPAY" ∧
    detectCardType amexVec.toList = "AMEX" ∧
    detectCardType rupayVec.toList = "RUPAY" := by
  refine ⟨by decide, by decide, by decide, by decide, by decide⟩

/-- Helper: a value produced by `findSome?` satisfies every property that
the selector guarantees on members of the list. -/
theorem findSome?_imp {α β : Type} (p : β → Prop) (f : α → Option β) :
    ∀ (l : List α), (∀ a ∈ l, ∀ b, f a = some b → p b) →
      ∀ (b : β), l.findSome? f = some b → p b := by
  intro l
  induction l with
  | nil =>
    intro _ b hb
    simp [List.findSome?] at hb
  | cons a l ih =>
    intro hsel b hb
    rw [List.findSome?_cons] at hb
    cases hfa : f a with
    | some c =>
      rw [hfa] at hb
      simp only [Option.some.injEq] at hb
      exact hb ▸ hsel a (by simp) c hfa
    | none =>
      rw [hfa] at hb
      exact ih (fun x hx => hsel x (by simp [hx])) b hb

/-- Helper: an accepted candidate group yields at most 16 digits. -/
theorem groupDigits_le16 (g digits : List Char) (h : groupDigits g = some digits) :
    digits.length ≤ 16 := by
  simp only [groupDigits] at h
  split_ifs at h with hc
  simp only [Option.some.injEq] at h
  subst h
  exact hc.2.1

/-- Helper: the fallback inner loop returns a window of at most 16 digits. -/
theorem tryStart_le16 (allDigits : List Char) (start : Nat) (c : List Char)
    (h : tryStart allDigits start = some c) : c.length ≤ 16 := by
  simp only [tryStart] at h
  refine findSome?_imp (fun b => b.length ≤ 16) _ _ ?_ c h
  intro len hlen b hb
  have hlen16 : len ≤ 16 := by
    unfold lensDesc at hlen
    rw [List.mem_map] at hlen
    obtain ⟨i, hi, rfl⟩ := hlen
    rw [List.mem_range] at hi
    omega
  simp only at hb
  split_ifs at hb
  simp only [Option.some.injEq] at hb
  subst hb
  calc ((allDigits.drop start).take len).length ≤ len := by
        rw [List.length_take]; omega
    _ ≤ 16 := hlen16

/-- Helper: the fallback search never returns more than 16 digits. -/
theorem fallbackScan_le16 (allDigits : List Char) (c : List Char)
    (h : fallbackScan allDigits = some c) : c.length ≤ 16 := by
  simp only [fallbackScan] at h
  split_ifs at h
  exact findSome?_imp (fun b => b.length ≤ 16) _ _
    (fun start _ b hb => tryStart_le16 allDigits start b hb) c h

/-- Helper: `extractCardNumber` never returns more than 16 digits. -/
theorem extractCardNumber_le16 (t : List Char) : (extractCardNumber t).length ≤ 16 := by
  simp only [extractCardNumber]
  split
  · rename_i digits hg
    exact findSome?_imp (fun b => b.length ≤ 16) _ _
      (fun g _ b hb => groupDigits_le16 g b hb) digits hg
  · split
    · rename_i c hf
      exact fallbackScan_le16 _ c hf
    · simp

/-- Claim C4: `extractCardNumber` always returns the empty string or at most
16 digits, so the scan handler's independent 422 branch for a number longer
than 16 digits can never be taken. -/
theorem C4_length_ceiling_and_dead_branch (t : List Char) :
    (extractCardNumber t).length ≤ 16 ∧ scanExtractionOutcome t ≠ ScanOutcome.tooLong := by
  have hle := extractCardNumber_le16 t
  refine ⟨hle, ?_⟩
  simp only [scanExtractionOutcome]
  split_ifs with h0 h16
  · simp
  · omega
  · simp

/-- Helper: `Char.isDigit` in terms of the scalar value. -/
theorem char_isDigit_iff (c : Char) : c.isDigit = true ↔ 48 ≤ c.toNat ∧ c.toNat ≤ 57 := by
  simp only [Char.isDigit, Bool.and_eq_true, decide_eq_true_eq]
  constructor
  · intro ⟨h1, h2⟩
    exact ⟨h1, h2⟩
  · intro ⟨h1, h2⟩
    exact ⟨h1, h2⟩

/-- Helper: separators are spaces or dashes. -/
theorem isSep_cases (c : Char) (h : isSep c = true) : c = ' ' ∨ c = '-' := by
  simp only [isSep, Bool.or_eq_true, decide_eq_true_eq] at h
  exact h

/-- Helper: separators are not digits. -/
theorem sep_not_digit (c : Char) (h : isSep c = true) : c.isDigit = false := by
  rcases isSep_cases c h with rfl | rfl <;> decide

/-- Helper: digits are not separators. -/
theorem digit_not_sep (c : Char) (hd : c.isDigit = true) : isSep c = false := by
  rw [Bool.eq_false_iff]
  intro hs
  rcases isSep_cases c hs with rfl | rfl <;> exact absurd hd (by decide)

/-- Helper: uppercasing fixes digit characters. -/
theorem toUpper_of_digit (c : Char) (hd : c.isDigit = true) : Char.toUpper c = c := by
  apply toUpper_of_not_lower
  rw [Bool.eq_false_iff]
  intro hl
  have h1 := (char_isLower_iff c).mp hl
  have h2 := (char_isDigit_iff c).mp hd
  omega

/-- Helper: the substitution map fixes digit characters. -/
theorem substDigit_of_digit (c : Char) (hd : c.isDigit = true) : substDigit c = c := by
  simp only [substDigit]
  have h1 : ¬(c = 'O' ∨ c = 'Q' ∨ c = 'D') := by
    rintro (rfl | rfl | rfl) <;> exact absurd hd (by decide)
  have h2 : ¬(c = 'I' ∨ c = 'L' ∨ c = '|') := by
    rintro (rfl | rfl | rfl) <;> exact absurd hd (by decide)
  have h3 : ¬(c = 'S') := by rintro rfl; exact absurd hd (by decide)
  have h4 : ¬(c = 'B') := by rintro rfl; exact absurd hd (by decide)
  have h5 : ¬(c = 'Z') := by rintro rfl; exact absurd hd (by decide)
  have h6 : ¬(c = 'G') := by rintro rfl; exact absurd hd (by decide)
  rw [if_neg h1, if_neg h2, if_neg h3, if_neg h4, if_neg h5, if_neg h6]

/-- Helper: normalization fixes digit characters. -/
theorem normChar_of_digit (c : Char) (hd : c.isDigit = true) :
    substDigit (Char.toUpper c) = c := by
  rw [toUpper_of_digit c hd, substDigit_of_digit c hd]

/-- Helper: normalization fixes separator characters. -/
theorem normChar_of_sep (c : Char) (hs : isSep c = true) :
    substDigit (Char.toUpper c) = c := by
  rcases isSep_cases c hs with rfl | rfl <;> decide

/-- Helper: a unit run has at least one digit and starts with a digit. -/
theorem unitRun_shape (r : List Char) (n : Nat) (h : UnitRun r n) :
    1 ≤ n ∧ ∃ c rest, r = c :: rest ∧ c.isDigit = true := by
  cases h with
  | single c hc => exact ⟨le_refl 1, c, [], rfl, hc⟩
  | consDigit c r n hc hr => exact ⟨by omega, c, r, rfl, hc⟩
  | consDigitSep c s r n hc hs hr => exact ⟨by omega, c, s :: r, rfl, hc⟩

/-- Helper: every character of a unit run is a digit or a separator. -/
theorem unitRun_chars (r : List Char) (n : Nat) (h : UnitRun r n) :
    ∀ c ∈ r, c.isDigit = true ∨ isSep c = true := by
  induction h with
  | single c hc =>
    intro x hx
    rw [List.mem_singleton] at hx
    subst hx
    exact Or.inl hc
  | consDigit c r n hc hr ih =>
    intro x hx
    rcases List.mem_cons.mp hx with rfl | hx
    · exact Or.inl hc
    · exact ih x hx
  | consDigitSep c s r n hc hs hr ih =>
    intro x hx
    rcases List.mem_cons.mp hx with rfl | hx
    · exact Or.inl hc
    rcases List.mem_cons.mp hx with rfl | hx
    · exact Or.inr hs
    · exact ih x hx

/-- Helper: normalization fixes a unit run verbatim. -/
theorem unitRun_norm_fix (r : List Char) (n : Nat) (h : UnitRun r n) :
    normalizeDigitLikeText r = r := by
  unfold normalizeDigitLikeText
  have : ∀ c ∈ r, substDigit (Char.toUpper c) = c := by
    intro c hc
    rcases unitRun_chars r n h c hc with hd | hs
    · exact normChar_of_digit c hd
    · exact normChar_of_sep c hs
  calc r.map (fun c => substDigit (Char.toUpper c)) = r.map id := List.map_congr_left this
    _ = r := List.map_id r

/-- Helper: filtering a unit run for digits keeps exactly its digit count. -/
theorem unitRun_filter_length (r : List Char) (n : Nat) (h : UnitRun r n) :
    (r.filter Char.isDigit).length = n := by
  induction h with
  | single c hc => simp [List.filter, hc]
  | consDigit c r n hc hr ih => simp [List.filter_cons, hc, ih]
  | consDigitSep c s r n hc hs hr ih =>
    simp [List.filter_cons, hc, sep_not_digit s hs, ih]

/-- Helper: the unit matcher stops immediately on digit-free text. -/
theorem munch_nodigit (s : List Char) (hs : ∀ c ∈ s, c.isDigit = false) :
    ∀ fuel, munch fuel s = (0, [], s) := by
  intro fuel
  cases fuel with
  | zero => rfl
  | succ f =>
    cases s with
    | nil => rfl
    | cons c cs =>
      simp only [munch]
      rw [if_neg]
      simp [hs c (by simp)]

/-- Helper: the unit matcher fails a step on a non-digit head. -/
theorem munch_nondigit_cons (fuel : Nat) (c : Char) (cs : List Char) (hc : c.isDigit = false) :
    munch (fuel + 1) (c :: cs) = (0, [], c :: cs) := by
  simp only [munch]
  rw [if_neg]
  simp [hc]

/-- Helper: on a unit run followed by digit-free text, the greedy unit
matcher consumes exactly the run plus at most one trailing separator. -/
theorem munch_run (s : List Char) (hs : ∀ c ∈ s, c.isDigit = false) (r : List Char) (n : Nat)
    (h : UnitRun r n) :
    ∀ fuel, n ≤ fuel →
      munch fuel (r ++ s) = (n, r ++ (sepSplit s).1, (sepSplit s).2) := by
  induction h with
  | single c hc =>
    intro fuel hf
    obtain ⟨f, rfl⟩ : ∃ f, fuel = f + 1 := ⟨fuel - 1, by omega⟩
    cases s with
    | nil =>
      simp only [List.singleton_append, munch, hc, if_true, sepSplit]
      simp
    | cons s0 s1 =>
      simp only [List.singleton_append, List.append_eq, List.nil_append, munch]
      rw [if_pos hc]
      by_cases h0 : isSep s0 = true
      · rw [if_pos h0]
        rw [munch_nodigit s1 (fun x hx => hs x (by simp [hx]))]
        simp [sepSplit, h0]
      · rw [if_neg h0]
        rw [munch_nodigit (s0 :: s1) hs]
        simp [sepSplit, h0]
  | consDigit c r n hc hrun ih =>
    intro fuel hf
    obtain ⟨f, rfl⟩ : ∃ f, fuel = f + 1 := ⟨fuel - 1, by omega⟩
    obtain ⟨-, hd, rest, hr, hhd⟩ := unitRun_shape r n hrun
    subst hr
    simp only [List.cons_append, List.append_eq, munch]
    rw [if_pos hc]
    rw [if_neg (by simp [digit_not_sep hd hhd])]
    have ihf := ih f (by omega)
    rw [List.cons_append] at ihf
    rw [ihf]
    simp
  | consDigitSep c s0 r n hc hsep hrun ih =>
    intro fuel hf
    obtain ⟨f, rfl⟩ : ∃ f, fuel = f + 1 := ⟨fuel - 1, by omega⟩
    simp only [List.cons_append, List.append_eq, munch]
    rw [if_pos hc, if_pos hsep]
    rw [ih f (by omega)]

/-- Helper: the group scanner passes over a digit-free prefix unchanged. -/
theorem scanGroups_skip (p : List Char) (hp : ∀ c ∈ p, c.isDigit = false) :
    ∀ (rest : List Char) (fuel : Nat),
      scanGroups (p.length + fuel) (p ++ rest) = scanGroups fuel rest := by
  induction p with
  | nil =>
    intro rest fuel
    simp
  | cons c p ih =>
    intro rest fuel
    have hc : c.isDigit = false := hp c (by simp)
    have hstep : (c :: p).length + fuel = (p.length + fuel) + 1 := by simp; omega
    rw [hstep, List.cons_append]
    simp only [scanGroups]
    rw [show (16 : Nat) = 15 + 1 from rfl, munch_nondigit_cons 15 c _ hc]
    simp only
    rw [if_neg (by omega)]
    exact ih (fun x hx => hp x (by simp [hx])) rest fuel

/-- Helper: the executable run parser is sound for `UnitRun`. -/
theorem unitCount_sound (r : List Char) (n : Nat) (h : unitCount r = some n) : UnitRun r n := by
  have H : ∀ (k : Nat) (r : List Char), r.length ≤ k → ∀ n, unitCount r = some n → UnitRun r n := by
    intro k
    induction k with
    | zero =>
      intro r hr n h
      have hnil : r = [] := List.length_eq_zero.mp (by omega)
      subst hnil
      exact Option.noConfusion h
    | succ k ih =>
      intro r hr n h
      rcases r with _ | ⟨c, _ | ⟨s, rest⟩⟩
      · exact Option.noConfusion h
      · simp only [unitCount] at h
        split_ifs at h with hc
        simp only [Option.some.injEq] at h
        subst h
        exact UnitRun.single c hc
      · simp only [unitCount] at h
        split_ifs at h with hc hsep
        · cases rest with
          | nil => exact Option.noConfusion h
          | cons r0 rtl =>
            rw [Option.map_eq_some'] at h
            obtain ⟨m, hm, rfl⟩ := h
            have hsub : UnitRun (r0 :: rtl) m := by
              apply ih (r0 :: rtl) _ m hm
              simp only [List.length_cons] at hr ⊢
              omega
            exact UnitRun.consDigitSep c s (r0 :: rtl) m hc hsep hsub
        · rw [Option.map_eq_some'] at h
          obtain ⟨m, hm, rfl⟩ := h
          have hsub : UnitRun (s :: rest) m := by
            apply ih (s :: rest) _ m hm
            simp only [List.length_cons] at hr ⊢
            omega
          exact UnitRun.consDigit c (s :: rest) m hc hsub
  exact H r.length r (le_refl _) n h

/-- Helper: the leading separator split of digit-free text holds no digit. -/
theorem sepSplit_fst_no_digit (ns : List Char) :
    (sepSplit ns).1.filter Char.isDigit = [] := by
  cases ns with
  | nil => rfl
  | cons c rest =>
    simp only [sepSplit]
    split_ifs with hc
    · simp [List.filter, sep_not_digit c hc]
    · rfl

/-- Claim C3: for text consisting of a single digit run (13-16 digits with
optional single space/dash separators) that passes the Luhn check, embedded
between digit-free noise, `extractCardNumber` returns exactly that run with
the separators stripped. -/
theorem C3_single_run_extraction (p r s : List Char) (n : Nat)
    (hrun : UnitRun r n) (h13 : 13 ≤ n) (h16 : n ≤ 16)
    (hluhn : luhnCheck (r.filter Char.isDigit) = true)
    (hp : ∀ c ∈ normalizeDigitLikeText p, c.isDigit = false)
    (hs : ∀ c ∈ normalizeDigitLikeText s, c.isDigit = false) :
    extractCardNumber (p ++ (r ++ s)) = r.filter Char.isDigit := by
  obtain ⟨hn1, c0, r0, hr0, hc0⟩ := unitRun_shape r n hrun
  have hnormr : normalizeDigitLikeText r = r := unitRun_norm_fix r n hrun
  have hflen : (r.filter Char.isDigit).length = n := unitRun_filter_length r n hrun
  simp only [extractCardNumber]
  have hsplit : normalizeDigitLikeText (p ++ (r ++ s)) =
      normalizeDigitLikeText p ++ (r ++ normalizeDigitLikeText s) := by
    unfold normalizeDigitLikeText at hnormr ⊢
    simp only [List.map_append, hnormr]
  rw [hsplit]
  have hlen : (normalizeDigitLikeText p ++ (r ++ normalizeDigitLikeText s)).length =
      (normalizeDigitLikeText p).length + (r.length + (normalizeDigitLikeText s).length) := by
    simp
  rw [hlen]
  rw [scanGroups_skip (normalizeDigitLikeText p) hp
    (r ++ normalizeDigitLikeText s) (r.length + (normalizeDigitLikeText s).length)]
  have hmunch : munch 16 (r ++ normalizeDigitLikeText s) =
      (n, r ++ (sepSplit (normalizeDigitLikeText s)).1, (sepSplit (normalizeDigitLikeText s)).2) :=
    munch_run (normalizeDigitLikeText s) hs r n hrun 16 h16
  have hfl : r.length + (normalizeDigitLikeText s).length =
      (r0.length + (normalizeDigitLikeText s).length) + 1 := by
    rw [hr0]
    simp only [List.length_cons]
    omega
  rw [hfl]
  rw [hr0] at hmunch ⊢
  simp only [List.cons_append] at hmunch ⊢
  simp only [scanGroups]
  rw [hmunch]
  simp only
  rw [if_pos h13]
  have hgd : groupDigits ((c0 :: r0) ++ (sepSplit (normalizeDigitLikeText s)).1) =
      some (r.filter Char.isDigit) := by
    simp only [groupDigits]
    have hfilter : (((c0 :: r0) ++ (sepSplit (normalizeDigitLikeText s)).1).filter Char.isDigit) =
        r.filter Char.isDigit := by
      rw [List.filter_append, sepSplit_fst_no_digit, List.append_nil, ← hr0]
    rw [hfilter]
    rw [if_pos ⟨by omega, by omega, hluhn⟩]
  simp only [List.cons_append] at hgd
  rw [List.findSome?_cons, hgd]
  simp [hr0]

/-- Witness for claim C3 on a concrete noisy text. -/
theorem C3_single_run_extraction_witness :
    extractCardNumber (noisePre.toList ++ (runText.toList ++ noiseSuf.toList)) =
      visaVec.toList := by
  have h := C3_single_run_extraction noisePre.toList runText.toList noiseSuf.toList 16
    (unitCount_sound runText.toList 16 (by decide)) (by decide) (by decide) (by decide)
    (by decide) (by decide)
  rw [h]
  decide

/-- Counterexample for claim C7: the mask block is a fixed 12 glyphs, so a
13-digit extracted number is masked with 12 glyphs, not its 9 leading
digits' worth. -/
theorem C7_counterexample :
    (extractCardNumber thirteenVec.toList).length = 13 ∧
    (maskCardNumber (extractCardNumber thirteenVec.toList)).count '•' = 12 ∧
    (12 : Nat) ≠ 13 - 4 := by
  refine ⟨by decide, by decide, by decide⟩

/-- Claim C7 (amended): for an extracted card number of 13-16 digits, the
masked form is the fixed block of 12 mask glyphs (three space-separated
groups of four) followed by exactly the number's last 4 digits — the glyph
count is always 12, independent of the number's length. -/
theorem C7_mask_fixed_block (numb : List Char) (hdig : ∀ c ∈ numb, c.isDigit = true)
    (h13 : 13 ≤ numb.length) (h16 : numb.length ≤ 16) :
    maskCardNumber numb = maskBlock.toList ++ numb.drop (numb.length - 4) ∧
    (maskCardNumber numb).count '•' = 12 ∧
    (numb.drop (numb.length - 4)).length = 4 := by
  have hform : maskCardNumber numb = maskBlock.toList ++ numb.drop (numb.length - 4) := by
    unfold maskCardNumber
    rw [if_neg (by omega)]
  refine ⟨hform, ?_, by rw [List.length_drop]; omega⟩
  rw [hform, List.count_append]
  have hz : (numb.drop (numb.length - 4)).count '•' = 0 := by
    rw [List.count_eq_zero]
    intro hmem
    have hd := hdig _ (List.mem_of_mem_drop hmem)
    exact absurd hd (by decide)
  rw [hz]
  decide

/-- Witness for claim C7 at the 16-digit VISA vector. -/
theorem C7_mask_fixed_block_witness :
    maskCardNumber visaVec.toList =
      maskBlock.toList ++ visaVec.toList.drop (visaVec.toList.length - 4) ∧
    (maskCardNumber visaVec.toList).count '•' = 12 ∧
    (visaVec.toList.drop (visaVec.toList.length - 4)).length = 4 :=
  C7_mask_fixed_block visaVec.toList (by decide) (by decide) (by decide)

/-- Helper: lookup misses survive filtering. -/
theorem lookupSess_filter_none (q : String × Sess → Bool) (sid : String) :
    ∀ store : List (String × Sess), lookupSess store sid = none →
      lookupSess (store.filter q) sid = none := by
  intro store
  induction store with
  | nil => intro _; rfl
  | cons p rest ih =>
    intro h
    obtain ⟨k, v⟩ := p
    simp only [lookupSess] at h
    split_ifs at h with hk
    rw [List.filter_cons]
    split_ifs with hq
    · simp only [lookupSess]
      rw [if_neg hk]
      exact ih h
    · exact ih h

/-- Helper: a key outside the store's key list is not found. -/
theorem lookupSess_not_mem (sid : String) :
    ∀ store : List (String × Sess), sid ∉ store.map Prod.fst →
      lookupSess store sid = none := by
  intro store
  induction store with
  | nil => intro _; rfl
  | cons p rest ih =>
    intro h
    obtain ⟨k, v⟩ := p
    simp only [List.map_cons, List.mem_cons] at h
    push_neg at h
    simp only [lookupSess]
    rw [if_neg (fun hk => h.1 hk.symm)]
    exact ih h.2

/-- Claim C8 (amended): under unique session ids, the poll endpoint (which
sweeps expired sessions before looking up) answers 404 for an expired id
exactly as for a never-created id, but the scan endpoint distinguishes
them: 404 for a never-created id versus 410 for an expired one. -/
theorem C8_gate_statuses (store : List (String × Sess)) (now : Nat) (sid : String)
    (hnodup : (store.map Prod.fst).Nodup) :
    (lookupSess store sid = none →
      scanGateStatus store now sid = 404 ∧ pollGateStatus store now sid = 404) ∧
    (∀ s : Sess, lookupSess store sid = some s → s.expiresAt ≤ now →
      scanGateStatus store now sid = 410 ∧ pollGateStatus store now sid = 404) := by
  constructor
  · intro hnone
    constructor
    · unfold scanGateStatus
      rw [hnone]
    · unfold pollGateStatus cleanupExpiredSessions
      rw [lookupSess_filter_none _ sid store hnone]
  · intro s hsome hexp
    constructor
    · unfold scanGateStatus
      rw [hsome]
      simp [hexp]
    · unfold pollGateStatus
      have hclean : lookupSess (cleanupExpiredSessions store now) sid = none := by
        induction store with
        | nil => exact Option.noConfusion hsome
        | cons p rest ih =>
          obtain ⟨k, v⟩ := p
          simp only [lookupSess] at hsome
          simp only [cleanupExpiredSessions, List.filter_cons]
          by_cases hk : k = sid
          · rw [if_pos hk] at hsome
            simp only [Option.some.injEq] at hsome
            subst hsome
            rw [if_neg (by simp; omega)]
            subst hk
            apply lookupSess_filter_none
            apply lookupSess_not_mem
            simp only [List.map_cons, List.nodup_cons] at hnodup
            exact hnodup.1
          · rw [if_neg hk] at hsome
            have hnodup2 : (rest.map Prod.fst).Nodup := by
              simp only [List.map_cons, List.nodup_cons] at hnodup
              exact hnodup.2
            have hrec := ih hnodup2 hsome
            simp only [cleanupExpiredSessions] at hrec
            split_ifs with hq
            · simp only [lookupSess]
              rw [if_neg hk]
              exact hrec
            · exact hrec
      rw [hclean]

/-- Counterexample for claim C8: at instant 10 the scan endpoint answers
410 for the expired session but 404 for a never-created one — the statuses
differ, so an expired session is distinguishable there. -/
theorem C8_counterexample :
    scanGateStatus storeEx 10 expiredSid = 410 ∧
    scanGateStatus storeEx 10 absentSid = 404 ∧
    (410 : Nat) ≠ 404 := by
  refine ⟨by decide, by decide, by decide⟩

/-- Witness for claim C8 at the concrete store. -/
theorem C8_gate_statuses_witness :
    (scanGateStatus storeEx 10 absentSid = 404 ∧ pollGateStatus storeEx 10 absentSid = 404) ∧
    (scanGateStatus storeEx 10 expiredSid = 410 ∧ pollGateStatus storeEx 10 expiredSid = 404) := by
  refine ⟨(C8_gate_statuses storeEx 10 absentSid (by decide)).1 (by decide), ?_⟩
  exact (C8_gate_statuses storeEx 10 expiredSid (by decide)).2
    (Sess.mk 0 5 pendingStatus false) (by decide) (by decide)

/-- Helper: `getLast?` returns a member. -/
theorem getLast?_mem {α : Type} : ∀ (l : List α) (a : α), l.getLast? = some a → a ∈ l := by
  intro l
  induction l with
  | nil => intro a h; exact Option.noConfusion h
  | cons x xs ih =>
    intro a h
    cases xs with
    | nil =>
      simp only [List.getLast?_singleton, Option.some.injEq] at h
      simp [h]
    | cons y ys =>
      rw [List.getLast?_cons_cons] at h
      exact List.mem_cons_of_mem x (ih a h)

/-- Helper: a nonempty `toExpiry` result has the month/slash/year shape
with a 2- or 3-digit year. -/
theorem toExpiry_shape (m y e : List Char) (h : toExpiry m y = e) (hne : e ≠ []) :
    expiryShape e := by
  simp only [toExpiry] at h
  split_ifs at h with h1 h2 h4
  · exact absurd h.symm hne
  · exact absurd h.symm hne
  · rw [Bool.not_eq_false] at h1 h2
    simp only [yearOK, Bool.and_eq_true, decide_eq_true_eq] at h2
    obtain ⟨⟨hy2, hy4⟩, hyd⟩ := h2
    refine ⟨normalizeDateDigits m, (normalizeDateDigits y).drop 2, h.symm, h1, ?_, ?_⟩
    · rw [List.all_eq_true] at hyd ⊢
      intro c hc
      exact hyd c (List.mem_of_mem_drop hc)
    · left
      rw [List.length_drop, h4]
  · rw [Bool.not_eq_false] at h1 h2
    simp only [yearOK, Bool.and_eq_true, decide_eq_true_eq] at h2
    obtain ⟨⟨hy2, hy4⟩, hyd⟩ := h2
    refine ⟨normalizeDateDigits m, normalizeDateDigits y, h.symm, h1, hyd, ?_⟩
    omega

/-- Helper: every collected date match carries a well-shaped expiry. -/
theorem collectDateMatches_shape (line : List Char) (p : Nat × List Char)
    (h : p ∈ collectDateMatches line) : expiryShape p.2 := by
  unfold collectDateMatches at h
  rw [List.mem_filterMap] at h
  obtain ⟨t, _, ht⟩ := h
  cases he : toExpiry t.2.1 t.2.2 with
  | nil =>
    rw [he] at ht
    exact Option.noConfusion ht
  | cons a as =>
    rw [he] at ht
    simp only [Option.some.injEq] at ht
    have hp2 : p.2 = a :: as := by rw [← ht]
    rw [hp2]
    exact toExpiry_shape t.2.1 t.2.2 (a :: as) he (by simp)

/-- Helper: the FROM/THRU special case only returns collected expiries. -/
theorem specialCaseScan_shape : ∀ (lines : List (List Char)) (e : List Char),
    specialCaseScan lines = some e → expiryShape e := by
  intro lines
  induction lines with
  | nil => intro e h; exact Option.noConfusion h
  | cons line rest ih =>
    intro e h
    simp only [specialCaseScan] at h
    split_ifs at h with h1 h2
    · rw [Option.map_eq_some'] at h
      obtain ⟨p, hp, rfl⟩ := h
      exact collectDateMatches_shape line p (getLast?_mem _ p hp)
    · rw [Option.map_eq_some'] at h
      obtain ⟨p, hp, rfl⟩ := h
      cases rest with
      | nil => exact absurd hp (by simp)
      | cons nextLine rtail =>
        exact collectDateMatches_shape nextLine p (getLast?_mem _ p hp)
    · exact ih e h

/-- Helper: every scored candidate carries a collected expiry. -/
theorem allCandidates_shape (lines : List (List Char)) (c : ExpCand)
    (h : c ∈ allCandidates lines) : expiryShape c.expiry := by
  unfold allCandidates at h
  rw [List.mem_flatMap] at h
  obtain ⟨i, _, hc⟩ := h
  simp only [lineCandidates] at hc
  rw [List.mem_map] at hc
  obtain ⟨pe, hpe, rfl⟩ := hc
  exact collectDateMatches_shape _ pe hpe

/-- Helper: membership through stable insertion. -/
theorem mem_insCand (le : ExpCand → ExpCand → Bool) (c x : ExpCand) :
    ∀ l, x ∈ insCand le c l ↔ x = c ∨ x ∈ l := by
  intro l
  induction l with
  | nil => simp [insCand]
  | cons d ds ih =>
    simp only [insCand]
    split_ifs
    · simp only [List.mem_cons]
    · simp only [List.mem_cons, ih]
      tauto

/-- Helper: sorting permutes membership. -/
theorem mem_sortCands (le : ExpCand → ExpCand → Bool) (x : ExpCand) :
    ∀ l, x ∈ sortCands le l ↔ x ∈ l := by
  intro l
  induction l with
  | nil => simp [sortCands]
  | cons c cs ih =>
    simp only [sortCands, List.foldr_cons]
    rw [mem_insCand]
    simp only [List.mem_cons]
    rw [← sortCands, ih]

/-- Helper: stable insertion preserves sortedness under a total transitive
comparator. -/
theorem pairwise_insCand (le : ExpCand → ExpCand → Bool)
    (htot : ∀ a b, le a b = true ∨ le b a = true)
    (htr : ∀ a b c, le a b = true → le b c = true → le a c = true)
    (c : ExpCand) :
    ∀ l, l.Pairwise (fun a b => le a b = true) →
      (insCand le c l).Pairwise (fun a b => le a b = true) := by
  intro l
  induction l with
  | nil =>
    intro _
    simp [insCand]
  | cons d ds ih =>
    intro hp
    rw [List.pairwise_cons] at hp
    obtain ⟨hd, hds⟩ := hp
    simp only [insCand]
    split_ifs with hcd
    · rw [List.pairwise_cons]
      constructor
      · intro x hx
        rcases List.mem_cons.mp hx with rfl | hx
        · exact hcd
        · exact htr c d x hcd (hd x hx)
      · rw [List.pairwise_cons]
        exact ⟨hd, hds⟩
    · rw [List.pairwise_cons]
      constructor
      · intro x hx
        rw [mem_insCand] at hx
        rcases hx with rfl | hx
        · rcases htot x d with h | h
          · exact absurd h hcd
          · exact h
        · exact hd x hx
      · exact ih hds

/-- Helper: the sorted candidate list is pairwise ordered. -/
theorem pairwise_sortCands (le : ExpCand → ExpCand → Bool)
    (htot : ∀ a b, le a b = true ∨ le b a = true)
    (htr : ∀ a b c, le a b = true → le b c = true → le a c = true) :
    ∀ l, (sortCands le l).Pairwise (fun a b => le a b = true) := by
  intro l
  induction l with
  | nil => simp [sortCands]
  | cons c cs ih =>
    simp only [sortCands, List.foldr_cons]
    exact pairwise_insCand le htot htr c _ ih

/-- Helper: the head of the sorted candidate list precedes every original
element in the comparator order. -/
theorem sortCands_head_le (le : ExpCand → ExpCand → Bool)
    (htot : ∀ a b, le a b = true ∨ le b a = true)
    (htr : ∀ a b c, le a b = true → le b c = true → le a c = true)
    (l : List ExpCand) (b : ExpCand) (rest : List ExpCand)
    (h : sortCands le l = b :: rest) :
    ∀ x ∈ l, le b x = true := by
  intro x hx
  have hx2 : x ∈ sortCands le l := (mem_sortCands le x l).mpr hx
  rw [h] at hx2
  rcases List.mem_cons.mp hx2 with rfl | hx2
  · rcases htot x x with h' | h' <;> exact h'
  · have hp := pairwise_sortCands le htot htr l
    rw [h, List.pairwise_cons] at hp
    exact hp.1 x hx2

/-- Helper: the chronological comparator characterized arithmetically. -/
theorem candLE_iff (a b : ExpCand) :
    candLE a b = true ↔ (expYear b.expiry < expYear a.expiry ∨
      (expYear b.expiry = expYear a.expiry ∧ expMonth b.expiry ≤ expMonth a.expiry)) := by
  unfold candLE compareExpiry
  split_ifs with hy <;> rw [decide_eq_true_eq] <;> constructor <;> intro h <;> omega

/-- Helper: the chronological comparator is total. -/
theorem candLE_total (a b : ExpCand) : candLE a b = true ∨ candLE b a = true := by
  rw [candLE_iff, candLE_iff]
  omega

/-- Helper: the chronological comparator is transitive. -/
theorem candLE_trans (a b c : ExpCand) (h1 : candLE a b = true) (h2 : candLE b c = true) :
    candLE a c = true := by
  rw [candLE_iff] at h1 h2 ⊢
  omega

/-- Counterexample for claim C5: on `09/263` the matched 3-digit year is
returned whole — the year is only truncated when it has exactly 4 digits,
so the result is not of the claimed `MM/YY` shape. -/
theorem C5_counterexample :
    extractExpiry yr3Vec.toList = yr3Vec.toList ∧
    claimedMMYY (extractExpiry yr3Vec.toList) = false := by
  refine ⟨by decide, by decide⟩

/-- Claim C5 (amended): `extractExpiry` returns the empty string or a
string `MM/Y…` whose month is 01-12 and whose year part is 2 or 3 digits:
matched 2-digit years stay, 4-digit years are cut to their last two digits,
but matched 3-digit years are returned unchanged. -/
theorem C5_expiry_result_shape (t : List Char) :
    extractExpiry t = [] ∨ expiryShape (extractExpiry t) := by
  cases hsc : specialCaseScan (toLines t) with
  | some e =>
    have he : extractExpiry t = e := by
      simp only [extractExpiry]
      rw [hsc]
    rw [he]
    right
    exact specialCaseScan_shape (toLines t) e hsc
  | none =>
    have he : extractExpiry t = generalPath (allCandidates (toLines t)) := by
      simp only [extractExpiry]
      rw [hsc]
    rw [he]
    cases hac : allCandidates (toLines t) with
    | nil => left; rfl
    | cons c rest =>
      simp only [generalPath]
      split_ifs with hmany
      · cases hsort : sortCands candLE (c :: rest) with
        | nil => left; rfl
        | cons b rest2 =>
          simp only [bestExpiry]
          right
          have hb : b ∈ allCandidates (toLines t) := by
            rw [hac]
            exact (mem_sortCands candLE b (c :: rest)).mp (by rw [hsort]; simp)
          exact allCandidates_shape (toLines t) b hb
      · cases hsort : sortCands scoreLE (c :: rest) with
        | nil => left; rfl
        | cons b rest2 =>
          simp only [bestExpiry]
          right
          have hb : b ∈ allCandidates (toLines t) := by
            rw [hac]
            exact (mem_sortCands scoreLE b (c :: rest)).mp (by rw [hsort]; simp)
          exact allCandidates_shape (toLines t) b hb

/-- Counterexample for claim C6: the text
`VALID FROM 09/26 THRU 03/24` contains the two distinct candidates 09/26
and 03/24, but the FROM/THRU special case returns the last date in scan
order, 03/24, not the chronologically later 09/26. -/
theorem C6_counterexample :
    extractExpiry fromThruVec.toList = r0324.toList ∧
    (toLines fromThruVec.toList).map (fun l => (collectDateMatches l).map Prod.snd) =
      [[r0926.toList, r0324.toList]] ∧
    r0324.toList ≠ r0926.toList := by
  refine ⟨by decide, by decide, by decide⟩

/-- Claim C6 (amended): when no line triggers the FROM/THRU special case,
and the scored candidates hold more than one distinct expiry value,
`extractExpiry` returns a candidate expiry that is chronologically latest
(year first, then month), ignoring proximity scores. -/
theorem C6_latest_on_general_path (t : List Char)
    (hnosc : specialCaseScan (toLines t) = none)
    (hmulti : ∃ c1 ∈ allCandidates (toLines t), ∃ c2 ∈ allCandidates (toLines t),
        c1.expiry ≠ c2.expiry) :
    (∃ c ∈ allCandidates (toLines t), extractExpiry t = c.expiry) ∧
    ∀ c ∈ allCandidates (toLines t), chronLE c.expiry (extractExpiry t) := by
  obtain ⟨c1, hc1, c2, hc2, hne⟩ := hmulti
  have he : extractExpiry t = generalPath (allCandidates (toLines t)) := by
    simp only [extractExpiry]
    rw [hnosc]
  rw [he]
  cases hac : allCandidates (toLines t) with
  | nil =>
    rw [hac] at hc1
    exact absurd hc1 (by simp)
  | cons c rest =>
    rw [hac] at hc1 hc2
    have hrest : 1 ≤ rest.length := by
      cases rest with
      | nil =>
        simp only [List.mem_singleton] at hc1 hc2
        subst hc1
        subst hc2
        exact absurd rfl hne
      | cons _ _ => simp
    simp only [generalPath]
    rw [if_pos hrest]
    cases hsort : sortCands candLE (c :: rest) with
    | nil =>
      have hmem : c ∈ sortCands candLE (c :: rest) :=
        (mem_sortCands candLE c (c :: rest)).mpr (by simp)
      rw [hsort] at hmem
      exact absurd hmem (by simp)
    | cons b rest2 =>
      simp only [bestExpiry]
      constructor
      · refine ⟨b, ?_, rfl⟩
        exact (mem_sortCands candLE b (c :: rest)).mp (by rw [hsort]; simp)
      · intro x hx
        have hle := sortCands_head_le candLE candLE_total candLE_trans (c :: rest) b rest2
          hsort x hx
        rw [candLE_iff] at hle
        unfold chronLE
        exact hle

/-- Witness for claim C6 on the two-line text `03/24`, `09/26`. -/
theorem C6_latest_on_general_path_witness :
    (∃ c ∈ allCandidates (toLines twoDatesVec.toList),
        extractExpiry twoDatesVec.toList = c.expiry) ∧
    ∀ c ∈ allCandidates (toLines twoDatesVec.toList),
        chronLE c.expiry (extractExpiry twoDatesVec.toList) :=
  C6_latest_on_general_path twoDatesVec.toList (by decide) (by decide)

/-- Helper: the splitter's pieces hold no spaces. -/
theorem splitSpaceAux_no_space : ∀ (cs acc : List Char), ' ' ∉ acc →
    ∀ w ∈ splitSpaceAux acc cs, ' ' ∉ w := by
  intro cs
  induction cs with
  | nil =>
    intro acc hacc w hw
    simp only [splitSpaceAux, List.mem_singleton] at hw
    subst hw
    intro hsp
    exact hacc (List.mem_reverse.mp hsp)
  | cons c cs ih =>
    intro acc hacc w hw
    simp only [splitSpaceAux] at hw
    split_ifs at hw with hc
    · rcases List.mem_cons.mp hw with rfl | hw2
      · intro hsp
        exact hacc (List.mem_reverse.mp hsp)
      · exact ih [] (by simp) w hw2
    · refine ih (c :: acc) ?_ w hw
      intro hsp
      rcases List.mem_cons.mp hsp with h | h
      · exact hc h.symm
      · exact hacc h

/-- Helper: the words of a split line hold no spaces. -/
theorem splitSpace_no_space (l : List Char) (w : List Char) (hw : w ∈ splitSpace l) :
    ' ' ∉ w := by
  unfold splitSpace at hw
  exact splitSpaceAux_no_space l [] (by simp) w (List.mem_of_mem_filter hw)

/-- Helper: the splitter passes through a space-free word unchanged. -/
theorem splitSpaceAux_passthrough : ∀ (w : List Char), ' ' ∉ w →
    ∀ acc cs, splitSpaceAux acc (w ++ cs) = splitSpaceAux (w.reverse ++ acc) cs := by
  intro w
  induction w with
  | nil => intro _ acc cs; simp
  | cons c w ih =>
    intro hw acc cs
    have hc : ¬(c = ' ') := fun h => hw (h ▸ List.mem_cons_self c w)
    simp only [List.cons_append, List.append_eq, splitSpaceAux]
    rw [if_neg hc]
    rw [ih (fun hm => hw (List.mem_cons_of_mem c hm)) (c :: acc) cs]
    congr 1
    simp

/-- Helper: splitting the space-joined words recovers them. -/
theorem splitSpace_join : ∀ (ws : List (List Char)), (∀ w ∈ ws, w ≠ []) →
    (∀ w ∈ ws, ' ' ∉ w) → ws ≠ [] → splitSpace (joinWords ws) = ws := by
  intro ws
  induction ws with
  | nil => intro _ _ h; exact absurd rfl h
  | cons w ws ih =>
    intro hne hns _
    cases ws with
    | nil =>
      simp only [joinWords]
      unfold splitSpace
      have h3 := splitSpaceAux_passthrough w (hns w (by simp)) [] []
      rw [List.append_nil] at h3
      rw [h3]
      simp only [splitSpaceAux, List.append_nil, List.reverse_reverse]
      rw [List.filter_cons]
      simp [hne w (by simp)]
    | cons w2 ws2 =>
      simp only [joinWords]
      unfold splitSpace
      have h3 := splitSpaceAux_passthrough w (hns w (by simp)) []
        (' ' :: joinWords (w2 :: ws2))
      rw [h3, List.append_nil]
      simp only [splitSpaceAux, List.reverse_reverse, eq_self_iff_true, if_true]
      rw [List.filter_cons]
      have hwe : w.isEmpty = false := by
        rw [Bool.eq_false_iff]
        intro hx
        exact hne w (by simp) (List.isEmpty_iff.mp hx)
      rw [if_pos (by rw [hwe]; rfl)]
      have hrec := ih (fun x hx => hne x (List.mem_cons_of_mem w hx))
        (fun x hx => hns x (List.mem_cons_of_mem w hx)) (by simp)
      unfold splitSpace at hrec
      rw [hrec]

/-- Helper: the strict-improvement fold stays within its inputs. -/
theorem foldl_best_mem : ∀ (rest : List (List Char × Int)) (c : List Char × Int),
    rest.foldl (fun best cand => if cand.2 > best.2 then cand else best) c ∈ c :: rest := by
  intro rest
  induction rest with
  | nil => intro c; simp
  | cons d ds ih =>
    intro c
    simp only [List.foldl_cons]
    have hmem := ih (if d.2 > c.2 then d else c)
    rcases List.mem_cons.mp hmem with h | h
    · rw [h]
      split_ifs
      · exact List.mem_cons_of_mem c (List.mem_cons_self d ds)
      · exact List.mem_cons_self c _
    · exact List.mem_cons_of_mem c (List.mem_cons_of_mem d h)

/-- Helper: the best candidate is one of the candidates. -/
theorem pickBest_mem (l : List (List Char × Int)) (b : List Char × Int)
    (h : pickBest l = some b) : b ∈ l := by
  cases l with
  | nil => exact Option.noConfusion h
  | cons c rest =>
    simp only [pickBest, Option.some.injEq] at h
    rw [← h]
    exact foldl_best_mem rest c

/-- Helper: a filtered word list joins and splits back to itself with its
guarantees intact. -/
theorem words_shape (line : List Char) (W : List (List Char))
    (hWsub : ∀ w ∈ W, w ∈ splitSpace (normalizeNameLine line))
    (hlen : ¬(W.length < 2 ∨ 4 < W.length))
    (hwords : ¬(W.any (fun w => decide (w.length < 2) || decide (14 < w.length)) = true))
    (hblock : ¬(W.any (fun w => decide (w ∈ blockedWords)) = true)) :
    2 ≤ (splitSpace (joinWords W)).length ∧
      ∀ w ∈ splitSpace (joinWords W), w ∉ blockedWords := by
  have hW2 : 2 ≤ W.length := by
    push_neg at hlen
    exact hlen.1
  have hlens : ∀ w ∈ W, 2 ≤ w.length := by
    intro w hw
    by_contra hlt
    push_neg at hlt
    have hb : (decide (w.length < 2) || decide (14 < w.length)) = true := by
      simp [hlt]
    rw [List.any_eq_true] at hwords
    exact hwords ⟨w, hw, hb⟩
  have hblocked : ∀ w ∈ W, w ∉ blockedWords := by
    intro w hw hmem
    rw [List.any_eq_true] at hblock
    exact hblock ⟨w, hw, by simp [hmem]⟩
  have hwne : ∀ w ∈ W, w ≠ [] := by
    intro w hw hx
    have h2 := hlens w hw
    rw [hx] at h2
    simp at h2
  have hwns : ∀ w ∈ W, ' ' ∉ w :=
    fun w hw => splitSpace_no_space (normalizeNameLine line) w (hWsub w hw)
  have hjoin : splitSpace (joinWords W) = W :=
    splitSpace_join W hwne hwns (by
      intro hx
      rw [hx] at hW2
      simp at hW2)
  rw [hjoin]
  exact ⟨hW2, hblocked⟩

/-- Helper: an accepted line candidate has 2-4 words, none blocklisted. -/
theorem nameCandidateOfLine_shape (anchors cardIdx expIdx : List Nat) (i : Nat)
    (line : List Char) (c : List Char × Int)
    (h : nameCandidateOfLine anchors cardIdx expIdx i line = some c) :
    2 ≤ (splitSpace c.1).length ∧ ∀ w ∈ splitSpace c.1, w ∉ blockedWords := by
  simp only [nameCandidateOfLine] at h
  by_cases hhon : (splitSpace (normalizeNameLine line)).headD [] ∈ honorifics
  · rw [if_pos hhon] at h
    split_ifs at h with h1 h2 h3 h4 h5 h6
    simp only [Option.some.injEq] at h
    rw [← h]
    exact words_shape line (splitSpace (normalizeNameLine line)).tail
      (fun w hw => List.mem_of_mem_tail hw) h3 h4 h5
  · rw [if_neg hhon] at h
    split_ifs at h with h1 h2 h3 h4 h5 h6
    simp only [Option.some.injEq] at h
    rw [← h]
    exact words_shape line (splitSpace (normalizeNameLine line))
      (fun w hw => hw) h3 h4 h5

/-- Helper: every name candidate has 2-4 words, none blocklisted. -/
theorem nameCandidates_shape (t : List Char) (c : List Char × Int)
    (h : c ∈ nameCandidates t) :
    2 ≤ (splitSpace c.1).length ∧ ∀ w ∈ splitSpace c.1, w ∉ blockedWords := by
  simp only [nameCandidates] at h
  rw [List.mem_filterMap] at h
  obtain ⟨i, _, hc⟩ := h
  exact nameCandidateOfLine_shape _ _ _ i _ c hc

/-- Claim C9: a nonempty result of `extractCardholderName` has at least 2
words and no blocklisted word, and whenever no candidate scores strictly
positive the result is the empty string. -/
theorem C9_name_rules (t : List Char) :
    (extractCardholderName t ≠ [] →
      2 ≤ (splitSpace (extractCardholderName t)).length ∧
      ∀ w ∈ splitSpace (extractCardholderName t), w ∉ blockedWords) ∧
    ((∀ c ∈ nameCandidates t, c.2 ≤ 0) → extractCardholderName t = []) := by
  constructor
  · intro hne
    cases hpb : pickBest (nameCandidates t) with
    | none =>
      have : extractCardholderName t = [] := by
        simp only [extractCardholderName]
        rw [hpb]
      exact absurd this hne
    | some best =>
      have hx : extractCardholderName t = if best.2 > 0 then best.1 else [] := by
        simp only [extractCardholderName]
        rw [hpb]
      by_cases hpos : best.2 > 0
      · have hb : extractCardholderName t = best.1 := by rw [hx, if_pos hpos]
        rw [hb]
        exact nameCandidates_shape t best (pickBest_mem _ best hpb)
      · rw [hx, if_neg hpos] at hne
        exact absurd rfl hne
  · intro hall
    cases hpb : pickBest (nameCandidates t) with
    | none =>
      simp only [extractCardholderName]
      rw [hpb]
    | some best =>
      have hle := hall best (pickBest_mem _ best hpb)
      have hx : extractCardholderName t = if best.2 > 0 then best.1 else [] := by
        simp only [extractCardholderName]
        rw [hpb]
      rw [hx, if_neg (by omega)]

/-- Witness for claim C9: the spec scenario yields the three-word name
`JOHN MICHAEL SMITH`, and a text with no candidates yields the empty
string. -/
theorem C9_name_rules_witness :
    (2 ≤ (splitSpace (extractCardholderName nameScenario.toList)).length ∧
      ∀ w ∈ splitSpace (extractCardholderName nameScenario.toList), w ∉ blockedWords) ∧
    extractCardholderName nameNoCand.toList = [] := by
  refine ⟨(C9_name_rules nameScenario.toList).1 (by decide),
    (C9_name_rules nameNoCand.toList).2 (by decide)⟩
